import Mathlib

/-!
# Verification of `TreeData.hpp` (gvegayon/phylogenetic)

A shallow embedding of the state-space enumeration (`states_mat`), the 2×2
transition model (`transition_mat`), the root prior (`root_node_pr`) and the
`pruner::TreeData` container, followed by theorems about them.

Conventions of the embedding:

* `std::vector<T>` is `List T`; `operator[]` with an index that is not below the
  size is undefined behaviour in C++ and is modelled by the result `none`.
* `uint` is the 32-bit unsigned type.  Values are natural numbers; conversions
  into `uint` are written out (`% 2 ^ 32`, or `none` where the conversion is
  undefined), and a `uint` loop counter that would have to pass `UINT_MAX`
  never reaches its bound, so such a loop yields no result (`none`).
* `double` is modelled by exact rational arithmetic (`ℚ`): the theorems speak of
  the operations the code performs, without floating-point rounding.
* The new content of a written reference argument is returned.  The one pair of
  reference parameters that can alias, `pr` and a row of `ans` in
  `transition_mat(pr, ans)`, is modelled by `PrRef` and `transition_mat_ref`;
  `transition_mat`, `set_mu` and `set_psi` with a vector argument are the calls
  whose argument lies outside the matrix being written.
* A sequence of setter calls issued by a client is a `List Call`, run by
  `TreeData.calls`.
* The pruning recursion itself is not part of `TreeData.hpp`; `prune` and its
  helpers are modelled from the specification (§4.5) and marked as such.
-/

namespace pruner

/-! ## Machine integers and vectors -/

/-- Largest value of the 32-bit unsigned type `uint`. -/
def UINT_MAX : Nat := 2 ^ 32 - 1

/-- Implicit conversion of a `size_t` value to `uint`: reduction modulo `2 ^ 32`. -/
def to_uint (k : Nat) : Nat := k % 2 ^ 32

/-- Modelled from the spec: the typedef `v_uint` of `pruner.hpp` (absent from the
sources), a vector of unsigned integers, as the return type of `states_mat` and the
uses in `TreeData` require. -/
abbrev v_uint := List Nat

/-- Modelled from the spec: the typedef `vv_uint` of `pruner.hpp` (absent from the
sources), a vector of vectors of unsigned integers. -/
abbrev vv_uint := List (List Nat)

/-- Modelled from the spec: the typedef `v_dbl` of `pruner.hpp` (absent from the
sources), a vector of doubles; doubles are exact rationals here, so a theorem about
values speaks of the operations the code performs, taken without rounding. -/
abbrev v_dbl := List ℚ

/-- Modelled from the spec: the typedef `vv_dbl` of `pruner.hpp` (absent from the
sources), a vector of vectors of doubles. -/
abbrev vv_dbl := List (List ℚ)

/-- Write `v[i] = x`; `none` when `i` is out of range. -/
def vset {α : Type} (v : List α) (i : Nat) (x : α) : Option (List α) :=
  if i < v.length then some (v.set i x) else none

/-- Read `m[i][j]`; `none` when either index is out of range. -/
def vvget {α : Type} (m : List (List α)) (i j : Nat) : Option α :=
  (m[i]?).bind fun row => row[j]?

/-- Write `m[i][j] = x`; `none` when either index is out of range. -/
def vvset {α : Type} (m : List (List α)) (i j : Nat) (x : α) : Option (List (List α)) :=
  (m[i]?).bind fun row => (vset row j x).map fun row' => m.set i row'

/-- The call `v.resize(n, val)` of `std::vector`: keeps the first `n` elements and
pads with `val` up to length `n`. -/
def vec_resize {α : Type} (v : List α) (n : Nat) (val : α) : List α :=
  v.take n ++ List.replicate (n - v.length) val

/-- The statement `m[i].resize(n)` on a matrix of doubles (new cells are `0.0`);
`none` when row `i` does not exist. -/
def row_resize (m : vv_dbl) (i n : Nat) : Option vv_dbl :=
  (m[i]?).map fun row => m.set i (vec_resize row n 0)

/-- The iterations `i, i + 1, …` (`n` of them) of a counted loop, threading the
state `st`; an iteration with undefined behaviour (`none`) ends the run. -/
def forLoop {σ : Type} (body : Nat → σ → Option σ) : Nat → Nat → σ → Option σ
  | 0, _, st => some st
  | n + 1, i, st => (body i st).bind (forLoop body n (i + 1))

/-- The loop `for (uint i = 0u; i < hi; ++i) body`.  The counter is a 32-bit
unsigned integer: when `hi` exceeds `UINT_MAX` the counter wraps to `0` before it
can reach `hi` and the loop never exits, so there is no result. -/
def uintFor {σ : Type} (hi : Nat) (body : Nat → σ → Option σ) (st : σ) : Option σ :=
  if hi ≤ UINT_MAX then forLoop body hi 0 st else none

/-! ## `new_vector_array` and `states_mat` -/

/-- The function `new_vector_array(n, m, val)`: `n` copies of a row of `m` copies of `val`. -/
def new_vector_array {α : Type} (n m : Nat) (val : α) : List (List α) :=
  List.replicate n (List.replicate m val)

/-- The expression `(uint) pow(2, P)`: the power is computed in floating point
(exactly, for a power of two) and the conversion to `uint` is defined only when the
value fits. -/
def pow2_uint (P : Nat) : Option Nat :=
  if 2 ^ P ≤ UINT_MAX then some (2 ^ P) else none

/-- Body of the inner loop of `states_mat`: `ans[i][p] = x%2; x /= 2;` on the
state `(x, ans)`. -/
def states_mat_step (i p : Nat) (st : Nat × vv_uint) : Option (Nat × vv_uint) :=
  (vvset st.2 i p (st.1 % 2)).map fun ans => (st.1 / 2, ans)

/-- Body of the outer loop of `states_mat`: `uint x = i;` followed by the loop over
the functions `p`. -/
def states_mat_row (P i : Nat) (ans : vv_uint) : Option vv_uint :=
  (uintFor P (states_mat_step i) (i, ans)).map Prod.snd

/-- The function `states_mat(P)`: the matrix of all joint states over `P` binary functions. -/
def states_mat (P : Nat) : Option vv_uint :=
  (pow2_uint P).bind fun nstates =>
    uintFor nstates (states_mat_row P) (new_vector_array nstates P 0)

/-! ## `transition_mat` -/

/-- The right-hand side of the assignment in `transition_mat`:
`!i ? (j ? pr[0] : (1.0-pr[0])) : (!j ? pr[1] : (1.0-pr[1]))`. -/
def transition_mat_entry (pr : v_dbl) (i j : Nat) : Option ℚ :=
  if i = 0 then
    (if j ≠ 0 then pr[0]? else (pr[0]?).map fun g => 1 - g)
  else
    (if j = 0 then pr[1]? else (pr[1]?).map fun l => 1 - l)

/-- Where the reference parameter `pr` of `transition_mat(pr, ans)` points: at a
vector outside the matrix `ans` (with the given content), or at the row `ans[k]` of
the very matrix that the call writes (the call `transition_mat(ans[k], ans)`). -/
inductive PrRef where
  | outside (pr : v_dbl)
  | row (k : Nat)

/-- The content seen through the reference `pr` while the matrix holds `ans`; a
reference to a row that does not exist is undefined behaviour (`none`). -/
def PrRef.read (r : PrRef) (ans : vv_dbl) : Option v_dbl :=
  match r with
  | PrRef.outside pr => some pr
  | PrRef.row k => ans[k]?

/-- The in-place overload `transition_mat(pr, ans)` with `pr` a const reference:
every assignment `ans[i][j] = …` reads `pr[0]` or `pr[1]` through the reference, on
the content the matrix has at that moment, and then writes the cell.  The result is
the new content of `ans`. -/
def transition_mat_ref (r : PrRef) (ans : vv_dbl) : Option vv_dbl :=
  uintFor 2 (fun i ans1 =>
    uintFor 2 (fun j ans2 =>
      (r.read ans2).bind fun pr => (transition_mat_entry pr i j).bind (vvset ans2 i j))
      ans1) ans

/-- The in-place overload `transition_mat(pr, ans)` called with a vector `pr` that
is not a row of `ans`; the result is the new content of `ans`. -/
def transition_mat (pr : v_dbl) (ans : vv_dbl) : Option vv_dbl :=
  transition_mat_ref (PrRef.outside pr) ans

/-- The allocating overload `transition_mat(pr)`: the matrix `ans` is a fresh local
variable, so `pr` cannot point into it. -/
def transition_mat_new (pr : v_dbl) : Option vv_dbl :=
  transition_mat pr (new_vector_array 2 2 0)

/-! ## `root_node_pr` -/

/-- Body of the inner loop of `root_node_pr`:
`Pr_root[s] *= (S[s][p] == 0u)? (1.0 - pi) : pi;`. -/
def root_node_pr_step (pi : ℚ) (S : vv_uint) (s p : Nat) (Pr_root : v_dbl) : Option v_dbl :=
  (vvget S s p).bind fun b =>
    (Pr_root[s]?).bind fun cur =>
      vset Pr_root s (cur * (if b = 0 then 1 - pi else pi))

/-- Body of the outer loop of `root_node_pr`: `Pr_root[s] = 1.0;` followed by the
loop over `p < S[0].size()`. -/
def root_node_pr_row (pi : ℚ) (S : vv_uint) (s : Nat) (Pr_root : v_dbl) : Option v_dbl :=
  (vset Pr_root s 1).bind fun Pr1 =>
    (S[0]?).bind fun S0 =>
      uintFor S0.length (root_node_pr_step pi S s) Pr1

/-- The function `root_node_pr(Pr_root, pi, S)`; the result is the new content of `Pr_root`. -/
def root_node_pr (Pr_root : v_dbl) (pi : ℚ) (S : vv_uint) : Option v_dbl :=
  uintFor S.length (root_node_pr_row pi S) Pr_root

/-! ## The container `pruner::TreeData` -/

/-- The data members of `pruner::TreeData`. -/
structure TreeData where
  nstates : Nat
  n : Nat
  nfuns : Nat
  nannotated : Nat
  A : vv_uint
  Ntype : v_uint
  states : vv_uint
  Pr : vv_dbl
  ll : ℚ
  PSI : vv_dbl
  MU : vv_dbl
  eta : v_dbl
  Pi : v_dbl
  deriving DecidableEq

/-- The 2×2 parameter matrix after `M.resize(2u); M[0].resize(2u); M[1].resize(2u);`
on a default-constructed (empty) matrix. -/
def resized_2x2 : Option vv_dbl :=
  (row_resize (vec_resize [] 2 []) 0 2).bind fun m => row_resize m 1 2

/-- The constructor `TreeData(A_, Ntype_, nannotated)`. -/
def TreeData.ctor (A_ : vv_uint) (Ntype_ : v_uint) (nannotated : Nat) : Option TreeData :=
  (A_[0]?).bind fun A0 =>
    let nfuns := to_uint A0.length
    let n := to_uint A_.length
    (states_mat nfuns).bind fun states =>
      let nstates := to_uint states.length
      resized_2x2.bind fun MU =>
        resized_2x2.bind fun PSI =>
          some
            { nstates := nstates
              n := n
              nfuns := nfuns
              nannotated := nannotated
              A := A_
              Ntype := Ntype_
              states := states
              Pr := new_vector_array n nstates 1
              ll := 0
              PSI := PSI
              MU := MU
              eta := vec_resize [] 2 0
              Pi := vec_resize [] nstates 0 }

/-- The setter `set_mu(mu_)` called with a vector that is not a row of `this->MU`:
`transition_mat(mu_, this->MU)`. -/
def TreeData.set_mu (td : TreeData) (mu_ : v_dbl) : Option TreeData :=
  (transition_mat mu_ td.MU).map fun m => { td with MU := m }

/-- The setter `set_psi(psi_)` called with a vector that is not a row of
`this->PSI`: `transition_mat(psi_, this->PSI)`. -/
def TreeData.set_psi (td : TreeData) (psi_ : v_dbl) : Option TreeData :=
  (transition_mat psi_ td.PSI).map fun m => { td with PSI := m }

/-- The setter `set_mu(mu_)` with `mu_` a const reference that may point at a row
of `this->MU`: `transition_mat(mu_, this->MU)`. -/
def TreeData.set_mu_ref (td : TreeData) (r : PrRef) : Option TreeData :=
  (transition_mat_ref r td.MU).map fun m => { td with MU := m }

/-- The setter `set_psi(psi_)` with `psi_` a const reference that may point at a
row of `this->PSI`: `transition_mat(psi_, this->PSI)`. -/
def TreeData.set_psi_ref (td : TreeData) (r : PrRef) : Option TreeData :=
  (transition_mat_ref r td.PSI).map fun m => { td with PSI := m }

/-- The setter `set_eta(eta_)`: `this->eta = eta_`. -/
def TreeData.set_eta (td : TreeData) (eta_ : v_dbl) : Option TreeData :=
  some { td with eta := eta_ }

/-- The setter `set_pi(pi_)`: `root_node_pr(this->Pi, pi_, states)`. -/
def TreeData.set_pi (td : TreeData) (pi_ : ℚ) : Option TreeData :=
  (root_node_pr td.Pi pi_ td.states).map fun v => { td with Pi := v }

/-- A matrix has shape `N × P`: `N` rows, each of length `P`. -/
def Shape {α : Type} (m : List (List α)) (N P : Nat) : Prop :=
  m.length = N ∧ ∀ r ∈ m, r.length = P

/-- The factor that `root_node_pr` multiplies in for function `p` of state `s`:
`pi` when `S[s][p]` is non-zero, `1 - pi` otherwise. -/
def root_factor (pi : ℚ) (S : vv_uint) (s p : Nat) : ℚ :=
  if (S.getD s []).getD p 0 ≠ 0 then pi else 1 - pi

/-- One call of a parameter setter, as issued by the parameter-search driver with
an argument of its own (a vector that is not a row of the container's matrices). -/
inductive Call where
  | set_mu (mu_ : v_dbl)
  | set_psi (psi_ : v_dbl)
  | set_eta (eta_ : v_dbl)
  | set_pi (pi_ : ℚ)

/-- Dispatch of one setter call on a `TreeData` state. -/
def TreeData.call (td : TreeData) : Call → Option TreeData
  | Call.set_mu mu_ => td.set_mu mu_
  | Call.set_psi psi_ => td.set_psi psi_
  | Call.set_eta eta_ => td.set_eta eta_
  | Call.set_pi pi_ => td.set_pi pi_

/-- A finite sequence of setter calls, executed from left to right; undefined
behaviour in one call leaves no result. -/
def TreeData.calls (td : TreeData) : List Call → Option TreeData
  | [] => some td
  | c :: cs => (td.call c).bind fun td1 => td1.calls cs

/-- The scalar that the inner loop of `root_node_pr` builds for state `s`, started
from `1.0`: the running product over `p < S[0].size()`. -/
def root_node_pr_value (pi : ℚ) (S : vv_uint) (s : Nat) : Option ℚ :=
  (S[0]?).bind fun S0 =>
    uintFor S0.length
      (fun p cur => (vvget S s p).map fun b => cur * (if b = 0 then 1 - pi else pi)) 1


/-! ## The pruning recursion (modelled from the spec) -/

/-- Modelled from the spec: the three values of an annotation cell (§3: each cell
of the annotation matrix is present, absent or unknown). -/
inductive Obs where
  | present
  | absent
  | unknown
  deriving DecidableEq

/-- Modelled from the spec: the two conventions that §4.5 and §9 leave open and
that the pruning engine (absent from the sources) needs: how the unsigned cell of
`A` encodes an observation, and which event-type tags of `Ntype` select the
transition matrix `MU` (the other tags select `PSI`). -/
structure Conventions where
  decode : Nat → Obs
  uses_mu : Nat → Bool

/-- Modelled from the spec: the topology collaborator of §6 (absent from the
sources): the post-order sequence of the nodes, the list of children of every node
and the flag telling which nodes are leaves. -/
structure Topology where
  order : List Nat
  offspring : List (List Nat)
  leaf : List Bool

/-- Modelled from the spec: the per-function emission probability of §4.5 (the
engine is absent from the sources).  With `eta = (false-positive, false-negative)`:
a true present bit is observed present with `1 - eta[1]` and absent with `eta[1]`; a
true absent bit is observed present with `eta[0]` and absent with `1 - eta[0]`; an
unknown observation contributes `1`. -/
def emission (eta : v_dbl) (o : Obs) (bit : Nat) : ℚ :=
  match o with
  | Obs.unknown => 1
  | Obs.present => if bit ≠ 0 then 1 - eta.getD 1 0 else eta.getD 0 0
  | Obs.absent => if bit ≠ 0 then eta.getD 1 0 else 1 - eta.getD 0 0

/-- Modelled from the spec: the leaf case of §4.5 (engine absent from the sources):
`Pr[v][s]` is the product over the functions `p` of the emission probability of the
observed cell `A[v][p]` given the true bit `s[p]`. -/
def leaf_pr (cv : Conventions) (eta : v_dbl) (a s : List Nat) : ℚ :=
  ((a.zip s).map fun ab => emission eta (cv.decode ab.1) ab.2).prod

/-- Modelled from the spec: the joint transition probability `s → s'` of §4.5
(engine absent from the sources), the product over the functions `p` of the entry
`M[s[p]][s'[p]]` of the selected transition matrix. -/
def joint_transition (M : vv_dbl) (s s' : List Nat) : ℚ :=
  ((s.zip s').map fun b => (M.getD b.1 []).getD b.2 0).prod

/-- Modelled from the spec: the factor of one child `c` in the internal case of
§4.5 (engine absent from the sources): the sum over the states `s'` of
`joint-transition(s → s') × Pr[c][s']`. -/
def child_factor (states : vv_uint) (M : vv_dbl) (pr_c : v_dbl) (s : List Nat) : ℚ :=
  ((states.zip pr_c).map fun sx => joint_transition M s sx.1 * sx.2).sum

/-- Modelled from the spec: the transition matrix bound to the event type of node
`c` (§4.5: selected by `Ntype[c]`; engine absent from the sources). -/
def transition_of (cv : Conventions) (td : TreeData) (c : Nat) : vv_dbl :=
  if cv.uses_mu (td.Ntype.getD c 0) then td.MU else td.PSI

/-- Modelled from the spec: one step of the state machine of §4.5 at node `v`
(engine absent from the sources).  A leaf gets its emission products; an internal
node gets, for every state `s`, the product over its children of their factors.  An
internal node without children, or a child index absent from `Ntype`, is a
precondition violation (§7) and aborts the evaluation (`none`). -/
def prune_node (cv : Conventions) (topo : Topology) (td : TreeData) (Pr : vv_dbl)
    (v : Nat) : Option vv_dbl :=
  if topo.leaf.getD v false then
    some (Pr.set v (td.states.map fun s => leaf_pr cv td.eta (td.A.getD v []) s))
  else if topo.offspring.getD v [] = [] then none
  else if ∀ c ∈ topo.offspring.getD v [], c < td.Ntype.length then
    some (Pr.set v (td.states.map fun s =>
      ((topo.offspring.getD v []).map fun c =>
        child_factor td.states (transition_of cv td c) (Pr.getD c []) s).prod))
  else none

/-- Modelled from the spec: the nodes of a sequence processed one after the other
on the table `Pr` (§4.5; engine absent from the sources). -/
def prune_nodes (cv : Conventions) (topo : Topology) (td : TreeData) :
    List Nat → vv_dbl → Option vv_dbl
  | [], Pr => some Pr
  | v :: vs, Pr => (prune_node cv topo td Pr v).bind (prune_nodes cv topo td vs)

/-- Modelled from the spec: the pruning recursion of §4.5 (engine absent from the
sources) on the table of a `TreeData`: `Pr` is reset to `1.0` everywhere, then the
nodes are visited in post-order.  The result is the final table; the accumulation
`ll += log(Σ_s Pr[r][s] · Pi[s])` at the root needs the logarithm and is not part
of this model. -/
def prune (cv : Conventions) (topo : Topology) (td : TreeData) : Option vv_dbl :=
  prune_nodes cv topo td topo.order (td.Pr.map fun row => row.map fun _ => 1)

/-- Modelled from the spec: a node whose entire subtree has only unknown leaf
observations (§8): a leaf all of whose cells are unknown, or an internal node all
of whose children are such nodes. -/
inductive UnknownSubtree (cv : Conventions) (topo : Topology) (A : vv_uint) : Nat → Prop
  | leaf (v : Nat) (hleaf : topo.leaf.getD v false = true)
      (hcells : ∀ a ∈ A.getD v [], cv.decode a = Obs.unknown) : UnknownSubtree cv topo A v
  | node (v : Nat) (hleaf : topo.leaf.getD v false = false)
      (hkids : ∀ c ∈ topo.offspring.getD v [], UnknownSubtree cv topo A c) :
      UnknownSubtree cv topo A v

/-- Modelled from the spec: the preconditions that §4.5, §6 and §7 put on the
topology handed to the engine, for a table of `n` rows and the tag vector `Ntype`:
every node occurs once in the order and has a row, every child is processed before
its parent, and every internal node has at least one child, all of them with an
event type. -/
def Topology.Valid (topo : Topology) (n : Nat) (Ntype : v_uint) : Prop :=
  topo.order.Nodup ∧ (∀ v ∈ topo.order, v < n) ∧
    (∀ i, i < topo.order.length →
      topo.leaf.getD (topo.order.getD i 0) false = false →
      topo.offspring.getD (topo.order.getD i 0) [] ≠ [] ∧
        ∀ c ∈ topo.offspring.getD (topo.order.getD i 0) [],
          c ∈ topo.order.take i ∧ c < Ntype.length)

/-- A 2×2 matrix each of whose rows sums to `1`. -/
def RowStochastic (M : vv_dbl) : Prop :=
  ∃ a b c d : ℚ, M = [[a, b], [c, d]] ∧ a + b = 1 ∧ c + d = 1


/-- Sample conventions: cell `0` is absent, cell `1` is present, any other cell is
unknown; the event-type tag `0` selects `MU`. -/
def sample_conventions : Conventions :=
  { decode := fun a => if a = 0 then Obs.absent else if a = 1 then Obs.present else Obs.unknown
    uses_mu := fun t => t == 0 }

/-- Sample topology: the root `0` with the single leaf child `1`, visited in the
post-order `1, 0`. -/
def two_node_topology : Topology :=
  { order := [1, 0]
    offspring := [[1], []]
    leaf := [false, true] }


/-- The argument of a `set_mu` / `set_psi` call has at least two elements (the two
cells `pr[0]`, `pr[1]` that `transition_mat` reads); the other calls qualify
always. -/
def Call.two_elements : Call → Bool
  | Call.set_mu mu_ => decide (2 ≤ mu_.length)
  | Call.set_psi psi_ => decide (2 ≤ psi_.length)
  | Call.set_eta _ => true
  | Call.set_pi _ => true

/-- The argument of a `set_eta` call is a pair (exactly two elements); the other
calls qualify always. -/
def Call.eta_pair : Call → Bool
  | Call.set_eta eta_ => decide (eta_.length = 2)
  | _ => true

/-- The array dimensions fixed at construction, for `n` nodes and `P` functions:
`states` is `2 ^ P × P`, `Pr` is `n × 2 ^ P`, `Pi` has length `2 ^ P`, `MU` and
`PSI` are 2×2. -/
def Dims (td : TreeData) (n P : Nat) : Prop :=
  Shape td.states (2 ^ P) P ∧ Shape td.Pr n (2 ^ P) ∧ td.Pi.length = 2 ^ P ∧
    Shape td.MU 2 2 ∧ Shape td.PSI 2 2


/-! ## Loops and vector accesses -/

theorem forLoop_inv {σ : Type} (body : Nat → σ → Option σ) (Inv : Nat → σ → Prop) :
    ∀ (n lo : Nat) (st : σ), Inv lo st →
      (∀ i st, lo ≤ i → i < lo + n → Inv i st →
        ∃ st', body i st = some st' ∧ Inv (i + 1) st') →
      ∃ st', forLoop body n lo st = some st' ∧ Inv (lo + n) st' := by
  intro n
  induction n with
  | zero => intro lo st h0 _; exact ⟨st, rfl, by simpa using h0⟩
  | succ n ih =>
    intro lo st h0 hstep
    obtain ⟨st1, hb, h1⟩ := hstep lo st (Nat.le_refl lo) (by omega) h0
    obtain ⟨st2, hl, h2⟩ := ih (lo + 1) st1 h1
      (fun i s hlo hhi hI => hstep i s (by omega) (by omega) hI)
    refine ⟨st2, ?_, ?_⟩
    · simp [forLoop, hb, hl]
    · have e : lo + (n + 1) = lo + 1 + n := by omega
      rw [e]; exact h2

theorem uintFor_inv {σ : Type} (body : Nat → σ → Option σ) (Inv : Nat → σ → Prop)
    (hi : Nat) (st : σ) (hhi : hi ≤ UINT_MAX) (h0 : Inv 0 st)
    (hstep : ∀ i st, i < hi → Inv i st → ∃ st', body i st = some st' ∧ Inv (i + 1) st') :
    ∃ st', uintFor hi body st = some st' ∧ Inv hi st' := by
  obtain ⟨st', h1, h2⟩ := forLoop_inv body Inv hi 0 st h0
    (fun i s _ hlt hI => hstep i s (by omega) hI)
  refine ⟨st', ?_, by simpa using h2⟩
  simp [uintFor, hhi, h1]

theorem vset_spec {α : Type} (v : List α) (i : Nat) (x : α) (hi : i < v.length) :
    vset v i x = some (v.set i x) := by
  simp [vset, hi]

theorem shape_row {α : Type} {m : List (List α)} {N P i : Nat} (h : Shape m N P)
    (hi : i < N) : ∃ row, m[i]? = some row ∧ row.length = P := by
  have hl : i < m.length := by rw [h.1]; exact hi
  exact ⟨m[i], by simp [hl], h.2 _ (List.getElem_mem hl)⟩

theorem vvget_lt {α : Type} {m : List (List α)} {N P i j : Nat} (h : Shape m N P)
    (hi : i < N) (hj : j < P) : ∃ x, vvget m i j = some x := by
  obtain ⟨row, hr, hlen⟩ := shape_row h hi
  have hj2 : j < row.length := by omega
  exact ⟨row[j], by simp [vvget, hr, hj2]⟩

theorem vvset_spec {α : Type} {m : List (List α)} {N P i j : Nat} (x : α)
    (h : Shape m N P) (hi : i < N) (hj : j < P) :
    ∃ m', vvset m i j x = some m' ∧ Shape m' N P ∧
      ∀ k l, vvget m' k l = if k = i ∧ l = j then some x else vvget m k l := by
  obtain ⟨row, hr, hlen⟩ := shape_row h hi
  have hj2 : j < row.length := by omega
  have hl : i < m.length := by rw [h.1]; exact hi
  refine ⟨m.set i (row.set j x), by simp [vvset, hr, vset, hj2], ⟨by simp [h.1], ?_⟩, ?_⟩
  · intro r hrm
    rcases List.mem_or_eq_of_mem_set hrm with h1 | h1
    · exact h.2 r h1
    · rw [h1]; simp [hlen]
  · intro k l
    by_cases hk : k = i
    · subst hk
      by_cases hjl : l = j
      · subst hjl; simp [vvget, hl, hj2]
      · have hne : j ≠ l := fun e => hjl e.symm
        simp [vvget, hl, hr, hjl, List.getElem?_set_ne hne]
    · have hne : i ≠ k := fun e => hk e.symm
      simp [vvget, hk, List.getElem?_set_ne hne]

theorem shape_new_vector_array {α : Type} (n m : Nat) (val : α) :
    Shape (new_vector_array n m val) n m := by
  constructor
  · simp [new_vector_array]
  · intro r hr
    have := List.eq_of_mem_replicate hr
    simp [this]

/-! ## `states_mat` -/

theorem states_mat_step_spec (N P i p x : Nat) (ans : vv_uint) (h : Shape ans N P)
    (hi : i < N) (hp : p < P) :
    ∃ ans', states_mat_step i p (x, ans) = some (x / 2, ans') ∧ Shape ans' N P ∧
      ∀ k l, vvget ans' k l = if k = i ∧ l = p then some (x % 2) else vvget ans k l := by
  obtain ⟨m', h1, h2, h3⟩ := vvset_spec (x % 2) h hi hp
  exact ⟨m', by simp [states_mat_step, h1], h2, h3⟩

theorem states_mat_row_spec (N P i : Nat) (ans : vv_uint) (h : Shape ans N P)
    (hi : i < N) (hP : P ≤ UINT_MAX) :
    ∃ ans', states_mat_row P i ans = some ans' ∧ Shape ans' N P ∧
      (∀ k l, k ≠ i → vvget ans' k l = vvget ans k l) ∧
      ∀ l, l < P → vvget ans' i l = some (i / 2 ^ l % 2) := by
  obtain ⟨st', h1, h2⟩ := uintFor_inv (states_mat_step i)
    (fun p st => st.1 = i / 2 ^ p ∧ Shape st.2 N P ∧
      (∀ k l, k ≠ i → vvget st.2 k l = vvget ans k l) ∧
      ∀ l, l < p → vvget st.2 i l = some (i / 2 ^ l % 2))
    P (i, ans) hP ⟨by simp, h, fun _ _ _ => rfl, fun l hl => by omega⟩
    (by
      rintro p ⟨x, a⟩ hp ⟨hx, hsh, hother, hdone⟩
      obtain ⟨a', e1, e2, e3⟩ := states_mat_step_spec N P i p x a hsh hi hp
      refine ⟨(x / 2, a'), e1, ?_, e2, ?_, ?_⟩
      · show x / 2 = i / 2 ^ (p + 1)
        have hx' : x = i / 2 ^ p := hx
        rw [hx', Nat.div_div_eq_div_mul, pow_succ]
      · intro k l hk
        show vvget a' k l = vvget ans k l
        rw [e3 k l]
        simp [hk]
        exact hother k l hk
      · intro l hl
        show vvget a' i l = some (i / 2 ^ l % 2)
        rw [e3 i l]
        by_cases hlp : l = p
        · subst hlp
          have hx' : x = i / 2 ^ l := hx
          simp [hx']
        · simp [hlp]
          exact hdone l (by omega))
  obtain ⟨x', a'⟩ := st'
  exact ⟨a', by simp [states_mat_row, h1], h2.2.1, h2.2.2.1, h2.2.2.2⟩

theorem states_mat_spec (P : Nat) (hP : 2 ^ P ≤ UINT_MAX) :
    ∃ M, states_mat P = some M ∧ Shape M (2 ^ P) P ∧
      ∀ i p, i < 2 ^ P → p < P → vvget M i p = some (i / 2 ^ p % 2) := by
  have hP' : P ≤ UINT_MAX := Nat.le_trans (Nat.le_of_lt (Nat.lt_two_pow P)) hP
  obtain ⟨M, h1, h2, h3⟩ := uintFor_inv (states_mat_row P)
    (fun i ans => Shape ans (2 ^ P) P ∧
      ∀ k p, k < i → p < P → vvget ans k p = some (k / 2 ^ p % 2))
    (2 ^ P) (new_vector_array (2 ^ P) P 0) hP
    ⟨shape_new_vector_array _ _ _, fun k p hk _ => by omega⟩
    (by
      rintro i ans hi ⟨hsh, hdone⟩
      obtain ⟨a', e1, e2, e3, e4⟩ := states_mat_row_spec (2 ^ P) P i ans hsh hi hP'
      refine ⟨a', e1, e2, ?_⟩
      intro k p hk hp
      by_cases hki : k = i
      · subst hki; exact e4 p hp
      · rw [e3 k p hki]; exact hdone k p (by omega) hp)
  exact ⟨M, by simp [states_mat, pow2_uint, hP, h1], h2, h3⟩

theorem bits_sum (i P : Nat) :
    ∑ p in Finset.range P, i / 2 ^ p % 2 * 2 ^ p = i % 2 ^ P := by
  induction P with
  | zero => simp [Nat.mod_one]
  | succ P ih => rw [Finset.sum_range_succ, ih, Nat.mod_pow_succ, Nat.mul_comm]

theorem bits_inj (P i j : Nat) (hi : i < 2 ^ P) (hj : j < 2 ^ P)
    (h : ∀ p, p < P → i / 2 ^ p % 2 = j / 2 ^ p % 2) : i = j := by
  have e : ∑ p in Finset.range P, i / 2 ^ p % 2 * 2 ^ p
      = ∑ p in Finset.range P, j / 2 ^ p % 2 * 2 ^ p :=
    Finset.sum_congr rfl (fun p hp => by rw [h p (Finset.mem_range.mp hp)])
  rw [bits_sum, bits_sum, Nat.mod_eq_of_lt hi, Nat.mod_eq_of_lt hj] at e
  exact e

theorem bits_surj (v : List Nat) (hv : ∀ b ∈ v, b = 0 ∨ b = 1) :
    ∃ i, i < 2 ^ v.length ∧ ∀ p, p < v.length → v[p]? = some (i / 2 ^ p % 2) := by
  induction v with
  | nil => exact ⟨0, by simp, fun p hp => by simp at hp⟩
  | cons b t ih =>
    obtain ⟨k, hk, hbits⟩ := ih (fun c hc => hv c (List.mem_cons_of_mem _ hc))
    have hb : b = 0 ∨ b = 1 := hv b (List.mem_cons_self _ _)
    refine ⟨b + 2 * k, ?_, ?_⟩
    · simp only [List.length_cons, pow_succ]
      omega
    · intro p hp
      cases p with
      | zero =>
        simp only [List.getElem?_cons_zero, pow_zero, Nat.div_one]
        congr 1
        omega
      | succ q =>
        have hq : q < t.length := by simpa using hp
        have e : (b + 2 * k) / 2 ^ (q + 1) = k / 2 ^ q := by
          have h2 : (b + 2 * k) / 2 = k := by omega
          rw [pow_succ, Nat.mul_comm (2 ^ q) 2, ← Nat.div_div_eq_div_mul, h2]
        rw [List.getElem?_cons_succ, hbits q hq, e]

theorem states_mat_rows (P : Nat) (hP : 2 ^ P ≤ UINT_MAX) :
    ∃ M, states_mat P = some M ∧ M.length = 2 ^ P ∧
      ∀ i, i < 2 ^ P → ∃ row, M[i]? = some row ∧ row.length = P ∧
        ∀ p, p < P → row[p]? = some (i / 2 ^ p % 2) := by
  obtain ⟨M, h1, h2, h3⟩ := states_mat_spec P hP
  refine ⟨M, h1, h2.1, fun i hi => ?_⟩
  obtain ⟨row, hr, hlen⟩ := shape_row h2 hi
  refine ⟨row, hr, hlen, fun p hp => ?_⟩
  have := h3 i p hi hp
  simpa [vvget, hr] using this

/-- C1: for every `P` whose `2 ^ P` fits the unsigned type, every `i < 2 ^ P` and
every `p < P`, `states_mat(P)` returns a matrix whose entry `[i][p]` is
`(i >> p) & 1`, which is `⌊i / 2 ^ p⌋ mod 2` (bit `0` is function `0`). -/
theorem states_mat_entry (P i p : Nat) (hP : 2 ^ P ≤ UINT_MAX) (hi : i < 2 ^ P)
    (hp : p < P) :
    ∃ M, states_mat P = some M ∧ vvget M i p = some ((i >>> p) &&& 1) ∧
      (i >>> p) &&& 1 = i / 2 ^ p % 2 := by
  obtain ⟨M, h1, _, h3⟩ := states_mat_spec P hP
  have e : (i >>> p) &&& 1 = i / 2 ^ p % 2 := by
    rw [Nat.and_one_is_mod, Nat.shiftRight_eq_div_pow]
  exact ⟨M, h1, by rw [e]; exact h3 i p hi hp, e⟩

theorem states_mat_entry_witness :
    2 ^ 3 ≤ UINT_MAX ∧ 5 < 2 ^ 3 ∧ 2 < 3 ∧
      ∃ M, states_mat 3 = some M ∧ vvget M 5 2 = some ((5 >>> 2) &&& 1) ∧
        (5 >>> 2) &&& 1 = 5 / 2 ^ 2 % 2 :=
  ⟨by decide, by decide, by decide,
    states_mat_entry 3 5 2 (by decide) (by decide) (by decide)⟩

/-- C2: for every `P` whose `2 ^ P` fits the unsigned type, `states_mat(P)` returns
a matrix with exactly `2 ^ P` rows, every one of length exactly `P`. -/
theorem states_mat_shape (P : Nat) (hP : 2 ^ P ≤ UINT_MAX) :
    ∃ M, states_mat P = some M ∧ M.length = 2 ^ P ∧ ∀ row ∈ M, row.length = P := by
  obtain ⟨M, h1, h2, _⟩ := states_mat_spec P hP
  exact ⟨M, h1, h2.1, h2.2⟩

theorem states_mat_shape_witness :
    2 ^ 4 ≤ UINT_MAX ∧
      ∃ M, states_mat 4 = some M ∧ M.length = 2 ^ 4 ∧ ∀ row ∈ M, row.length = 4 :=
  ⟨by decide, states_mat_shape 4 (by decide)⟩

/-- C3: round trip index → bits → index.  For every `P` whose `2 ^ P` fits the
unsigned type and every `i < 2 ^ P`, row `i` of `states_mat(P)` has length `P` and
the sum over `p < P` of `row[p] * 2 ^ p` is `i`. -/
theorem states_mat_roundtrip (P i : Nat) (hP : 2 ^ P ≤ UINT_MAX) (hi : i < 2 ^ P) :
    ∃ M row, states_mat P = some M ∧ M[i]? = some row ∧ row.length = P ∧
      ∑ p in Finset.range P, row.getD p 0 * 2 ^ p = i := by
  obtain ⟨M, h1, _, h3⟩ := states_mat_rows P hP
  obtain ⟨row, hr, hlen, hbits⟩ := h3 i hi
  refine ⟨M, row, h1, hr, hlen, ?_⟩
  have e : ∑ p in Finset.range P, row.getD p 0 * 2 ^ p
      = ∑ p in Finset.range P, i / 2 ^ p % 2 * 2 ^ p :=
    Finset.sum_congr rfl (fun p hp => by
      rw [List.getD_eq_getElem?_getD, hbits p (Finset.mem_range.mp hp)]; rfl)
  rw [e, bits_sum, Nat.mod_eq_of_lt hi]

theorem states_mat_roundtrip_witness :
    2 ^ 3 ≤ UINT_MAX ∧ 6 < 2 ^ 3 ∧
      ∃ M row, states_mat 3 = some M ∧ M[6]? = some row ∧ row.length = 3 ∧
        ∑ p in Finset.range 3, row.getD p 0 * 2 ^ p = 6 :=
  ⟨by decide, by decide, states_mat_roundtrip 3 6 (by decide) (by decide)⟩

/-- C4: for every `P` whose `2 ^ P` fits the unsigned type, `states_mat(P)`
enumerates the bit-vectors of length `P` exactly once: every vector of length `P`
with entries in `{0, 1}` is a row of the matrix, and two row indices that hold
equal rows are the same index. -/
theorem states_mat_bijection (P : Nat) (hP : 2 ^ P ≤ UINT_MAX) :
    ∃ M, states_mat P = some M ∧
      (∀ v : List Nat, v.length = P → (∀ b ∈ v, b = 0 ∨ b = 1) → v ∈ M) ∧
      (∀ i j, i < M.length → j < M.length → M[i]? = M[j]? → i = j) := by
  obtain ⟨M, h1, hlen, h3⟩ := states_mat_rows P hP
  refine ⟨M, h1, ?_, ?_⟩
  · intro v hv hbit
    obtain ⟨i, hi, hbits⟩ := bits_surj v hbit
    rw [hv] at hi hbits
    obtain ⟨row, hr, hrl, hrow⟩ := h3 i hi
    have e : row = v := by
      apply List.ext_getElem?
      intro n
      by_cases hn : n < P
      · rw [hrow n hn, hbits n hn]
      · have h1 : row.length ≤ n := by omega
        have h2 : v.length ≤ n := by omega
        rw [List.getElem?_eq_none h1, List.getElem?_eq_none h2]
    rw [← e]
    exact List.mem_iff_getElem?.mpr ⟨i, hr⟩
  · intro i j hi hj hij
    rw [hlen] at hi hj
    obtain ⟨ri, hri, _, hbi⟩ := h3 i hi
    obtain ⟨rj, hrj, _, hbj⟩ := h3 j hj
    have e : ri = rj := by
      rw [hri, hrj] at hij
      exact Option.some.inj hij
    apply bits_inj P i j hi hj
    intro p hp
    have h4 := hbi p hp
    rw [e, hbj p hp] at h4
    exact (Option.some.inj h4).symm

theorem states_mat_bijection_witness :
    2 ^ 2 ≤ UINT_MAX ∧
      ∃ M, states_mat 2 = some M ∧
        (∀ v : List Nat, v.length = 2 → (∀ b ∈ v, b = 0 ∨ b = 1) → v ∈ M) ∧
        (∀ i j, i < M.length → j < M.length → M[i]? = M[j]? → i = j) :=
  ⟨by decide, states_mat_bijection 2 (by decide)⟩

/-! ## `transition_mat` -/

theorem transition_mat_pair (gain loss a b c d : ℚ) :
    transition_mat [gain, loss] [[a, b], [c, d]]
      = some [[1 - gain, gain], [loss, 1 - loss]] := by
  simp [transition_mat, transition_mat_ref, PrRef.read, uintFor, UINT_MAX, forLoop,
        transition_mat_entry, vvset, vset]

theorem transition_mat_new_pair (gain loss : ℚ) :
    transition_mat_new [gain, loss] = some [[1 - gain, gain], [loss, 1 - loss]] := by
  simpa [transition_mat_new, new_vector_array] using transition_mat_pair gain loss 0 0 0 0

theorem transition_mat_ref_row0 (a b c d : ℚ) :
    transition_mat_ref (PrRef.row 0) [[a, b], [c, d]]
      = some [[1 - a, 1 - a], [1 - a, a]] := by
  simp [transition_mat_ref, PrRef.read, uintFor, UINT_MAX, forLoop, transition_mat_entry,
    vvset, vset]

theorem transition_mat_ref_row1 (a b c d : ℚ) :
    transition_mat_ref (PrRef.row 1) [[a, b], [c, d]]
      = some [[1 - c, c], [d, 1 - d]] := by
  simp [transition_mat_ref, PrRef.read, uintFor, UINT_MAX, forLoop, transition_mat_entry,
    vvset, vset]

/-- C5 (as stated, refuted): with `ans = [[1/4, 1/2], [9, 9]]` and `pr` the row
`ans[0]` itself, so that `pr` is the pair `(gain, loss) = (1/4, 1/2)`, the call
`transition_mat(ans[0], ans)` leaves `[[3/4, 3/4], [3/4, 1/4]]`, not
`[[1 - gain, gain], [loss, 1 - loss]]`: the cells of `pr` are overwritten while
they are still being read. -/
theorem transition_mat_alias_row0 :
    PrRef.read (PrRef.row 0) [[1 / 4, 1 / 2], [9, 9]] = some [1 / 4, 1 / 2] ∧
      transition_mat_ref (PrRef.row 0) [[1 / 4, 1 / 2], [9, 9]]
        = some [[3 / 4, 3 / 4], [3 / 4, 1 / 4]] ∧
      ([[3 / 4, 3 / 4], [3 / 4, 1 / 4]] : vv_dbl)
        ≠ [[1 - 1 / 4, 1 / 4], [1 / 2, 1 - 1 / 2]] := by
  refine ⟨rfl, ?_, by norm_num⟩
  rw [transition_mat_ref_row0]
  norm_num

/-- C5 (amended): for every pair `pr = (gain, loss)` that is not the row `ans[0]`
of the matrix being written (a vector outside `ans`, or the row `ans[1]`) and every
2×2 matrix `ans`, the in-place `transition_mat(pr, ans)` leaves
`ans[0][0] = 1 - gain`, `ans[0][1] = gain`, `ans[1][0] = loss`,
`ans[1][1] = 1 - loss`, and the allocating overload `transition_mat(pr)` returns
the same 2×2 matrix. -/
theorem transition_mat_values (gain loss a b c d : ℚ) :
    transition_mat_ref (PrRef.outside [gain, loss]) [[a, b], [c, d]]
        = some [[1 - gain, gain], [loss, 1 - loss]] ∧
      transition_mat_ref (PrRef.row 1) [[a, b], [gain, loss]]
        = some [[1 - gain, gain], [loss, 1 - loss]] ∧
      transition_mat_new [gain, loss] = some [[1 - gain, gain], [loss, 1 - loss]] :=
  ⟨transition_mat_pair gain loss a b c d, transition_mat_ref_row1 a b gain loss,
    transition_mat_new_pair gain loss⟩

/-- C6: for all `gain`, `loss` in `[0, 1]`, the matrix produced by
`transition_mat((gain, loss))` (either overload) has two rows and each row sums
to exactly `1` in rational arithmetic.  (The proof does not need the bounds on
`gain` and `loss`.) -/
theorem transition_mat_rows_sum (gain loss : ℚ) (_hg0 : 0 ≤ gain) (_hg1 : gain ≤ 1)
    (_hl0 : 0 ≤ loss) (_hl1 : loss ≤ 1) :
    ∃ M, transition_mat_new [gain, loss] = some M ∧
      (∀ a b c d : ℚ, transition_mat [gain, loss] [[a, b], [c, d]] = some M) ∧
      M.length = 2 ∧ ∀ row ∈ M, row.sum = 1 := by
  refine ⟨[[1 - gain, gain], [loss, 1 - loss]],
    transition_mat_new_pair gain loss,
    fun a b c d => transition_mat_pair gain loss a b c d, rfl, ?_⟩
  intro row hrow
  simp only [List.mem_cons, List.mem_singleton, List.not_mem_nil, or_false] at hrow
  rcases hrow with h | h <;> subst h <;> simp

theorem transition_mat_rows_sum_witness :
    (0 : ℚ) ≤ 3 / 10 ∧ (3 / 10 : ℚ) ≤ 1 ∧ (0 : ℚ) ≤ 1 / 5 ∧ (1 / 5 : ℚ) ≤ 1 ∧
      ∃ M, transition_mat_new [3 / 10, 1 / 5] = some M ∧
        (∀ a b c d : ℚ, transition_mat [3 / 10, 1 / 5] [[a, b], [c, d]] = some M) ∧
        M.length = 2 ∧ ∀ row ∈ M, row.sum = 1 :=
  ⟨by norm_num, by norm_num, by norm_num, by norm_num,
    transition_mat_rows_sum (3 / 10) (1 / 5) (by norm_num) (by norm_num) (by norm_num)
      (by norm_num)⟩

/-! ## `root_node_pr` -/

theorem root_node_pr_step_spec (pi : ℚ) (S : vv_uint) (N P s p : Nat) (Pr : v_dbl)
    (cur : ℚ) (hS : Shape S N P) (hs : s < N) (hp : p < P) (hcur : Pr[s]? = some cur) :
    root_node_pr_step pi S s p Pr = some (Pr.set s (cur * root_factor pi S s p)) := by
  obtain ⟨row, hr, hlen⟩ := shape_row hS hs
  have hp2 : p < row.length := by omega
  have hsl : s < Pr.length := by
    rcases List.getElem?_eq_some.mp hcur with ⟨h, _⟩
    exact h
  have hsS : s < S.length := by rw [hS.1]; exact hs
  have e1 : S.getD s [] = row := by
    rw [List.getD_eq_getElem?_getD, hr]; rfl
  have e2 : row.getD p 0 = row[p] := by
    rw [List.getD_eq_getElem?_getD]; simp [hp2]
  have e3 : vvget S s p = some row[p] := by simp [vvget, hr, hp2]
  simp only [root_node_pr_step, e3, Option.some_bind, hcur, vset, hsl, if_true,
    root_factor, e1, e2]
  by_cases hb : row[p] = 0 <;> simp [hb]

theorem root_node_pr_row_spec (pi : ℚ) (S : vv_uint) (N P s : Nat) (Pr : v_dbl)
    (hS : Shape S N P) (hs : s < N) (hP : P ≤ UINT_MAX) (hlen : Pr.length = N) :
    ∃ Pr', root_node_pr_row pi S s Pr = some Pr' ∧ Pr'.length = N ∧
      (∀ k, k ≠ s → Pr'[k]? = Pr[k]?) ∧
      Pr'[s]? = some (∏ p in Finset.range P, root_factor pi S s p) := by
  have hsl : s < Pr.length := by omega
  have hN : 0 < N := by omega
  obtain ⟨S0, hS0, hS0len⟩ := shape_row hS hN
  obtain ⟨Pr', h1, h2⟩ := uintFor_inv (root_node_pr_step pi S s)
    (fun p v => v.length = N ∧ (∀ k, k ≠ s → v[k]? = Pr[k]?) ∧
      v[s]? = some (∏ q in Finset.range p, root_factor pi S s q))
    P (Pr.set s 1) hP
    ⟨by simp [hlen], fun k hk => List.getElem?_set_ne (fun e => hk e.symm),
      by simp [hsl]⟩
    (by
      rintro p v hp ⟨hvl, hother, hprod⟩
      refine ⟨_, root_node_pr_step_spec pi S N P s p v _ hS hs hp hprod, by simp [hvl], ?_, ?_⟩
      · intro k hk
        rw [List.getElem?_set_ne (fun e => hk e.symm)]
        exact hother k hk
      · have hsv : s < v.length := by omega
        rw [Finset.prod_range_succ]
        simp [hsv])
  refine ⟨Pr', ?_, h2.1, h2.2.1, h2.2.2⟩
  simp [root_node_pr_row, vset, hsl, hS0, hS0len, h1]

theorem root_node_pr_spec (pi : ℚ) (S : vv_uint) (P : Nat) (Pr_root : v_dbl)
    (hN : S.length ≤ UINT_MAX) (hP : P ≤ UINT_MAX) (hS : ∀ row ∈ S, row.length = P)
    (hlen : Pr_root.length = S.length) :
    ∃ out, root_node_pr Pr_root pi S = some out ∧ out.length = S.length ∧
      ∀ s, s < S.length →
        out[s]? = some (∏ p in Finset.range P, root_factor pi S s p) := by
  have hSh : Shape S S.length P := ⟨rfl, hS⟩
  obtain ⟨out, h1, h2, h3⟩ := uintFor_inv (root_node_pr_row pi S)
    (fun s v => v.length = S.length ∧
      ∀ k, k < s → v[k]? = some (∏ p in Finset.range P, root_factor pi S k p))
    S.length Pr_root hN ⟨hlen, fun k hk => by omega⟩
    (by
      rintro s v hs ⟨hvl, hdone⟩
      obtain ⟨v', e1, e2, e3, e4⟩ := root_node_pr_row_spec pi S S.length P s v hSh hs hP hvl
      refine ⟨v', e1, e2, ?_⟩
      intro k hk
      by_cases hks : k = s
      · subst hks; exact e4
      · rw [e3 k hks]; exact hdone k (by omega))
  exact ⟨out, h1, h2, h3⟩

theorem bit_below (P i : Nat) (hi : i < 2 ^ P) : i / 2 ^ P % 2 = 0 := by
  rw [Nat.div_eq_of_lt hi]

theorem bit_top (P i : Nat) (hi : i < 2 ^ P) : (2 ^ P + i) / 2 ^ P % 2 = 1 := by
  rw [Nat.add_div_left i (Nat.two_pow_pos _), Nat.div_eq_of_lt hi]

theorem bit_shift (P i p : Nat) (hp : p < P) :
    (2 ^ P + i) / 2 ^ p % 2 = i / 2 ^ p % 2 := by
  have e : 2 ^ P = 2 ^ p * (2 * 2 ^ (P - p - 1)) := by
    rw [← pow_succ', ← pow_add]
    congr 1
    omega
  rw [e, Nat.add_comm, Nat.add_mul_div_left _ _ (Nat.two_pow_pos _),
    Nat.add_mul_mod_self_left]

theorem bernoulli_product_sum (f : Nat → ℚ) (P : Nat) :
    ∑ i in Finset.range (2 ^ P), ∏ p in Finset.range P, f (i / 2 ^ p % 2)
      = (f 0 + f 1) ^ P := by
  induction P with
  | zero => simp
  | succ P ih =>
    have e : 2 ^ (P + 1) = 2 ^ P + 2 ^ P := by rw [pow_succ]; omega
    rw [e, Finset.sum_range_add]
    have h1 : ∀ i ∈ Finset.range (2 ^ P),
        ∏ p in Finset.range (P + 1), f (i / 2 ^ p % 2)
          = (∏ p in Finset.range P, f (i / 2 ^ p % 2)) * f 0 := by
      intro i hi
      rw [Finset.prod_range_succ, bit_below P i (Finset.mem_range.mp hi)]
    have h2 : ∀ i ∈ Finset.range (2 ^ P),
        ∏ p in Finset.range (P + 1), f ((2 ^ P + i) / 2 ^ p % 2)
          = (∏ p in Finset.range P, f (i / 2 ^ p % 2)) * f 1 := by
      intro i hi
      rw [Finset.prod_range_succ, bit_top P i (Finset.mem_range.mp hi)]
      congr 1
      exact Finset.prod_congr rfl (fun p hp => by
        rw [bit_shift P i p (Finset.mem_range.mp hp)])
    rw [Finset.sum_congr rfl h1, Finset.sum_congr rfl h2, ← Finset.sum_mul,
      ← Finset.sum_mul, ih, pow_succ]
    ring

theorem list_sum_of_entries (out : List ℚ) (N : Nat) (g : Nat → ℚ)
    (hlen : out.length = N) (h : ∀ s, s < N → out[s]? = some (g s)) :
    out.sum = ∑ i in Finset.range N, g i := by
  have e : out = (List.range N).map g := by
    apply List.ext_getElem?
    intro n
    by_cases hn : n < N
    · rw [h n hn, List.getElem?_map, List.getElem?_range hn]; rfl
    · have h1 : out.length ≤ n := by omega
      have h2 : ((List.range N).map g).length ≤ n := by simp; omega
      rw [List.getElem?_eq_none h1, List.getElem?_eq_none h2]
  rw [e]
  clear e h hlen
  induction N with
  | zero => simp
  | succ N ih => rw [List.sum_range_succ, Finset.sum_range_succ, ih]

theorem root_node_pr_row_wide (pi : ℚ) (S : vv_uint) (s : Nat) (Pr : v_dbl)
    (S0 : List Nat) (hs : s < Pr.length) (hS0 : S[0]? = some S0)
    (hw : ¬ S0.length ≤ UINT_MAX) : root_node_pr_row pi S s Pr = none := by
  simp [root_node_pr_row, vset, hs, hS0, uintFor, hw]

theorem root_node_pr_wide (pi : ℚ) (S : vv_uint) (Pr : v_dbl) (S0 : List Nat)
    (hS : 0 < S.length) (hPr : 0 < Pr.length) (hS0 : S[0]? = some S0)
    (hw : ¬ S0.length ≤ UINT_MAX) : root_node_pr Pr pi S = none := by
  unfold root_node_pr uintFor
  split
  · obtain ⟨n, hn⟩ : ∃ n, S.length = n + 1 := ⟨S.length - 1, by omega⟩
    rw [hn]
    simp [forLoop, root_node_pr_row_wide pi S 0 Pr S0 hPr hS0 hw]
  · rfl

/-- C7 (as stated, refuted): a state matrix with a single row of width `2 ^ 32`
and a one-element `Pr_root` meet the stated preconditions, yet `root_node_pr` has
no result: the `uint` counter `p` can never reach `S[0].size()`. -/
theorem root_node_pr_wide_row_no_result :
    (∀ row ∈ [List.replicate (2 ^ 32) 0], row.length = 2 ^ 32) ∧
      [(0 : ℚ)].length = [List.replicate (2 ^ 32) 0].length ∧
      root_node_pr [0] (1 / 2) [List.replicate (2 ^ 32) 0] = none := by
  refine ⟨?_, rfl, ?_⟩
  · intro row hrow
    rw [List.mem_singleton.mp hrow, List.length_replicate]
  · have h : ¬ ((List.replicate (2 ^ 32) (0 : Nat)).length ≤ UINT_MAX) := by
      rw [List.length_replicate]; decide
    exact root_node_pr_wide (1 / 2) _ _ _ (Nat.zero_lt_one) (Nat.zero_lt_one)
      (List.getElem?_cons_zero) h

/-- C7 (amended): for every `pi`, every state matrix `S` with at most `UINT_MAX`
rows, all of the same width `P ≤ UINT_MAX`, and every vector `Pr_root` of length
`|S|`, `root_node_pr(Pr_root, pi, S)` returns, and afterwards each entry
`Pr_root[s]` is the product over `p < P` of (`pi` if `S[s][p] != 0`, else
`1 - pi`). -/
theorem root_node_pr_entries (pi : ℚ) (S : vv_uint) (P : Nat) (Pr_root : v_dbl)
    (hN : S.length ≤ UINT_MAX) (hP : P ≤ UINT_MAX) (hS : ∀ row ∈ S, row.length = P)
    (hlen : Pr_root.length = S.length) :
    ∃ out, root_node_pr Pr_root pi S = some out ∧ out.length = S.length ∧
      ∀ s, s < S.length →
        out[s]? = some (∏ p in Finset.range P,
          if (S.getD s []).getD p 0 ≠ 0 then pi else 1 - pi) := by
  obtain ⟨out, h1, h2, h3⟩ := root_node_pr_spec pi S P Pr_root hN hP hS hlen
  exact ⟨out, h1, h2, fun s hs => by simpa [root_factor] using h3 s hs⟩

theorem root_node_pr_entries_witness :
    [[0, 1], [1, 1]].length ≤ UINT_MAX ∧ 2 ≤ UINT_MAX ∧
      (∀ row ∈ [[0, 1], [1, 1]], row.length = 2) ∧
      [(0 : ℚ), 0].length = [[0, 1], [1, 1]].length ∧
      ∃ out, root_node_pr [0, 0] (1 / 4) [[0, 1], [1, 1]] = some out ∧
        out.length = [[0, 1], [1, 1]].length ∧
        ∀ s, s < [[0, 1], [1, 1]].length →
          out[s]? = some (∏ p in Finset.range 2,
            if ([[0, 1], [1, 1]].getD s []).getD p 0 ≠ 0 then (1 / 4 : ℚ) else 1 - 1 / 4) :=
  ⟨by decide, by decide, by decide, by decide,
    root_node_pr_entries (1 / 4) [[0, 1], [1, 1]] 2 [0, 0] (by decide) (by decide)
      (by decide) (by decide)⟩

/-- C8: for every `pi` in `[0, 1]` and every `P` whose `2 ^ P` fits the unsigned
type, `root_node_pr` run on `S = states_mat(P)` (and a vector of `2 ^ P` cells)
returns a vector of `2 ^ P` entries whose sum is exactly `1` in rational
arithmetic.  (The proof does not need the bounds on `pi`.) -/
theorem root_node_pr_sum_one (pi : ℚ) (P : Nat) (Pr_root : v_dbl) (_h0 : 0 ≤ pi)
    (_h1 : pi ≤ 1) (hP : 2 ^ P ≤ UINT_MAX) (hlen : Pr_root.length = 2 ^ P) :
    ∃ S out, states_mat P = some S ∧ root_node_pr Pr_root pi S = some out ∧
      out.length = 2 ^ P ∧ out.sum = 1 := by
  obtain ⟨S, hS, hSlen, hrows⟩ := states_mat_rows P hP
  obtain ⟨S', hS', hshape, _⟩ := states_mat_spec P hP
  have eS : S' = S := Option.some.inj (hS'.symm.trans hS)
  rw [eS] at hshape
  have hP' : P ≤ UINT_MAX := Nat.le_trans (Nat.le_of_lt (Nat.lt_two_pow P)) hP
  obtain ⟨out, h1, h2, h3⟩ := root_node_pr_spec pi S P Pr_root (by rw [hSlen]; exact hP)
    hP' hshape.2 (by rw [hSlen]; exact hlen)
  rw [hSlen] at h2 h3
  refine ⟨S, out, hS, h1, h2, ?_⟩
  rw [list_sum_of_entries out (2 ^ P) _ h2 h3]
  have hf : ∀ i ∈ Finset.range (2 ^ P),
      ∏ p in Finset.range P, root_factor pi S i p
        = ∏ p in Finset.range P,
            (fun b : Nat => if b ≠ 0 then pi else 1 - pi) (i / 2 ^ p % 2) := by
    intro i hi
    obtain ⟨row, hr, _, hbits⟩ := hrows i (Finset.mem_range.mp hi)
    refine Finset.prod_congr rfl (fun p hp => ?_)
    have e1 : S.getD i [] = row := by rw [List.getD_eq_getElem?_getD, hr]; rfl
    have e2 : row.getD p 0 = i / 2 ^ p % 2 := by
      rw [List.getD_eq_getElem?_getD, hbits p (Finset.mem_range.mp hp)]; rfl
    simp only [root_factor, e1, e2]
  rw [Finset.sum_congr rfl hf]
  exact (bernoulli_product_sum (fun b : Nat => if b ≠ 0 then pi else 1 - pi) P).trans
    (by simp)

theorem root_node_pr_sum_one_witness :
    (0 : ℚ) ≤ 1 / 4 ∧ (1 / 4 : ℚ) ≤ 1 ∧ 2 ^ 2 ≤ UINT_MAX ∧
      [(0 : ℚ), 0, 0, 0].length = 2 ^ 2 ∧
      ∃ S out, states_mat 2 = some S ∧ root_node_pr [0, 0, 0, 0] (1 / 4) S = some out ∧
        out.length = 2 ^ 2 ∧ out.sum = 1 :=
  ⟨by norm_num, by norm_num, by decide, by decide,
    root_node_pr_sum_one (1 / 4) 2 [0, 0, 0, 0] (by norm_num) (by norm_num) (by decide)
      (by decide)⟩

/-! ## The container -/

theorem resized_2x2_eq : resized_2x2 = some [[0, 0], [0, 0]] := by
  simp [resized_2x2, row_resize, vec_resize]

theorem to_uint_of_le (k : Nat) (h : k ≤ UINT_MAX) : to_uint k = k := by
  unfold to_uint
  apply Nat.mod_eq_of_lt
  have : UINT_MAX < 2 ^ 32 := by decide
  omega

theorem TreeData_ctor_eq (A : vv_uint) (Ntype : v_uint) (nannotated P : Nat)
    (S : vv_uint) (hne : A ≠ []) (hA : ∀ row ∈ A, row.length = P)
    (hn : A.length ≤ UINT_MAX) (hP : 2 ^ P ≤ UINT_MAX) (hS : states_mat P = some S)
    (hSlen : S.length = 2 ^ P) :
    TreeData.ctor A Ntype nannotated = some
      { nstates := 2 ^ P
        n := A.length
        nfuns := P
        nannotated := nannotated
        A := A
        Ntype := Ntype
        states := S
        Pr := List.replicate A.length (List.replicate (2 ^ P) 1)
        ll := 0
        PSI := [[0, 0], [0, 0]]
        MU := [[0, 0], [0, 0]]
        eta := [0, 0]
        Pi := List.replicate (2 ^ P) 0 } := by
  have hP' : P ≤ UINT_MAX := Nat.le_trans (Nat.le_of_lt (Nat.lt_two_pow P)) hP
  cases A with
  | nil => exact absurd rfl hne
  | cons A0 rest =>
    have hA0 : A0.length = P := hA A0 (List.mem_cons_self _ _)
    have e1 : to_uint A0.length = P := by rw [hA0]; exact to_uint_of_le P hP'
    have e2 : to_uint (A0 :: rest).length = (A0 :: rest).length := to_uint_of_le _ hn
    have e3 : to_uint S.length = 2 ^ P := by rw [hSlen]; exact to_uint_of_le _ hP
    simp only [TreeData.ctor, List.getElem?_cons_zero, Option.some_bind, e1, hS,
      resized_2x2_eq, e2, e3, new_vector_array, vec_resize]
    simp

/-- C9 (as stated, refuted): the one-row annotation matrix of width `32` is
non-empty with rows of equal width, yet no `TreeData` is constructed from it:
`2 ^ 32` is not a value of the `uint` field `nstates`. -/
theorem TreeData_ctor_width_32 :
    [List.replicate 32 0] ≠ [] ∧ (∀ row ∈ [List.replicate 32 0], row.length = 32) ∧
      TreeData.ctor [List.replicate 32 0] [0] 1 = none := by
  decide

/-- C9 (amended): for every non-empty annotation matrix `A` with at most `UINT_MAX`
rows, all of width `P` with `2 ^ P ≤ UINT_MAX`, every `Ntype` and every
`nannotated`, the constructor returns a `TreeData` with `n = |A|`, `nfuns = P`,
`nstates = 2 ^ P`, `states = states_mat(P)`, `Pr` an `n × 2 ^ P` table of `1.0`,
`eta = [0, 0]`, `Pi` of length `2 ^ P` filled with `0`, `MU` and `PSI` 2×2 filled
with `0`, `ll = 0.0`, and `A`, `Ntype`, `nannotated` stored unchanged. -/
theorem TreeData_ctor_fields (A : vv_uint) (Ntype : v_uint) (nannotated P : Nat)
    (hne : A ≠ []) (hA : ∀ row ∈ A, row.length = P) (hn : A.length ≤ UINT_MAX)
    (hP : 2 ^ P ≤ UINT_MAX) :
    ∃ td S, TreeData.ctor A Ntype nannotated = some td ∧ states_mat P = some S ∧
      td.n = A.length ∧ td.nfuns = P ∧ td.nstates = 2 ^ P ∧ td.states = S ∧
      td.Pr = List.replicate A.length (List.replicate (2 ^ P) 1) ∧
      td.eta = [0, 0] ∧ td.Pi = List.replicate (2 ^ P) 0 ∧
      td.MU = [[0, 0], [0, 0]] ∧ td.PSI = [[0, 0], [0, 0]] ∧ td.ll = 0 ∧
      td.A = A ∧ td.Ntype = Ntype ∧ td.nannotated = nannotated := by
  obtain ⟨S, hS, hshape, _⟩ := states_mat_spec P hP
  refine ⟨_, S, TreeData_ctor_eq A Ntype nannotated P S hne hA hn hP hS hshape.1, hS, ?_⟩
  simp

theorem TreeData_ctor_fields_witness :
    [[0, 1], [1, 1], [9, 9]] ≠ [] ∧ (∀ row ∈ [[0, 1], [1, 1], [9, 9]], row.length = 2) ∧
      [[0, 1], [1, 1], [9, 9]].length ≤ UINT_MAX ∧ 2 ^ 2 ≤ UINT_MAX ∧
      ∃ td S, TreeData.ctor [[0, 1], [1, 1], [9, 9]] [0, 1, 2] 2 = some td ∧
        states_mat 2 = some S ∧
        td.n = [[0, 1], [1, 1], [9, 9]].length ∧ td.nfuns = 2 ∧ td.nstates = 2 ^ 2 ∧
        td.states = S ∧
        td.Pr = List.replicate [[0, 1], [1, 1], [9, 9]].length (List.replicate (2 ^ 2) 1) ∧
        td.eta = [0, 0] ∧ td.Pi = List.replicate (2 ^ 2) 0 ∧
        td.MU = [[0, 0], [0, 0]] ∧ td.PSI = [[0, 0], [0, 0]] ∧ td.ll = 0 ∧
        td.A = [[0, 1], [1, 1], [9, 9]] ∧ td.Ntype = [0, 1, 2] ∧ td.nannotated = 2 :=
  ⟨by decide, by decide, by decide, by decide,
    TreeData_ctor_fields [[0, 1], [1, 1], [9, 9]] [0, 1, 2] 2 2 (by decide) (by decide)
      (by decide) (by decide)⟩

/-- C10: each setter changes only its targeted field.  For every `TreeData` state
`td`, a completed call of `set_mu` leaves a state equal to `td` in every field
except possibly `MU`; likewise `set_psi` for `PSI`, `set_eta` for `eta` and
`set_pi` for `Pi`.  So `Pr`, `states`, `A`, `Ntype`, `ll`, `n`, `nfuns`, `nstates`,
`nannotated` and the three other parameter arrays are the same before and after. -/
theorem setters_frame (td : TreeData) :
    (∀ mu_ td', td.set_mu mu_ = some td' → td' = { td with MU := td'.MU }) ∧
      (∀ psi_ td', td.set_psi psi_ = some td' → td' = { td with PSI := td'.PSI }) ∧
      (∀ eta_ td', td.set_eta eta_ = some td' → td' = { td with eta := td'.eta }) ∧
      (∀ pi_ td', td.set_pi pi_ = some td' → td' = { td with Pi := td'.Pi }) := by
  refine ⟨?_, ?_, ?_, ?_⟩
  · intro mu_ td' h
    simp only [TreeData.set_mu, Option.map_eq_some'] at h
    obtain ⟨m, _, rfl⟩ := h
    rfl
  · intro psi_ td' h
    simp only [TreeData.set_psi, Option.map_eq_some'] at h
    obtain ⟨m, _, rfl⟩ := h
    rfl
  · intro eta_ td' h
    simp only [TreeData.set_eta, Option.some.injEq] at h
    subst h
    rfl
  · intro pi_ td' h
    simp only [TreeData.set_pi, Option.map_eq_some'] at h
    obtain ⟨v, _, rfl⟩ := h
    rfl

theorem setters_frame_witness :
    ∃ td t1 t2 t3 t4, TreeData.ctor [[1], [0]] [0, 1] 2 = some td ∧
      td.set_mu [3 / 10, 1 / 5] = some t1 ∧ t1 = { td with MU := t1.MU } ∧
      t1.MU ≠ td.MU ∧
      td.set_psi [1 / 2, 1 / 4] = some t2 ∧ t2 = { td with PSI := t2.PSI } ∧
      td.set_eta [1 / 10, 1 / 20] = some t3 ∧ t3 = { td with eta := t3.eta } ∧
      td.set_pi (1 / 4) = some t4 ∧ t4 = { td with Pi := t4.Pi } := by
  have hc : TreeData.ctor [[1], [0]] [0, 1] 2 = some
      { nstates := 2, n := 2, nfuns := 1, nannotated := 2, A := [[1], [0]],
        Ntype := [0, 1], states := [[0], [1]], Pr := [[1, 1], [1, 1]], ll := 0,
        PSI := [[0, 0], [0, 0]], MU := [[0, 0], [0, 0]], eta := [0, 0], Pi := [0, 0] } := by
    decide
  have h1 : ∀ td : TreeData, td.MU = [[0, 0], [0, 0]] →
      td.set_mu [3 / 10, 1 / 5] = some { td with MU := [[7 / 10, 3 / 10], [1 / 5, 4 / 5]] } := by
    intro td h
    norm_num [TreeData.set_mu, h, transition_mat_pair]
  have h2 : ∀ td : TreeData, td.PSI = [[0, 0], [0, 0]] →
      td.set_psi [1 / 2, 1 / 4] = some { td with PSI := [[1 / 2, 1 / 2], [1 / 4, 3 / 4]] } := by
    intro td h
    norm_num [TreeData.set_psi, h, transition_mat_pair]
  have h4 : ∀ td : TreeData, td.Pi = [0, 0] → td.states = [[0], [1]] →
      td.set_pi (1 / 4) = some { td with Pi := [3 / 4, 1 / 4] } := by
    intro td h hs
    norm_num [TreeData.set_pi, h, hs, root_node_pr, uintFor, UINT_MAX, forLoop,
      root_node_pr_row, root_node_pr_step, vset, vvget]
  refine ⟨_, _, _, _, _, hc, h1 _ rfl, (setters_frame _).1 _ _ (h1 _ rfl), by simp,
    h2 _ rfl, (setters_frame _).2.1 _ _ (h2 _ rfl), rfl,
    (setters_frame _).2.2.1 _ _ rfl, h4 _ rfl rfl, (setters_frame _).2.2.2 _ _ (h4 _ rfl rfl)⟩

/-! ## Idempotence of the setters -/

theorem forLoop_inv_of_some {σ : Type} (body : Nat → σ → Option σ)
    (Inv : Nat → σ → Prop) :
    ∀ (n lo : Nat) (st st' : σ), Inv lo st →
      (∀ i s s', lo ≤ i → i < lo + n → Inv i s → body i s = some s' → Inv (i + 1) s') →
      forLoop body n lo st = some st' → Inv (lo + n) st' := by
  intro n
  induction n with
  | zero =>
    intro lo st st' h0 _ h
    simp only [forLoop, Option.some.injEq] at h
    subst h
    simpa using h0
  | succ n ih =>
    intro lo st st' h0 hstep h
    simp only [forLoop] at h
    cases hb : body lo st with
    | none => simp [hb] at h
    | some s1 =>
      rw [hb, Option.some_bind] at h
      have h1 := hstep lo st s1 (Nat.le_refl lo) (by omega) h0 hb
      have h2 := ih (lo + 1) s1 st' h1
        (fun i s s' hlo hhi hI hbi => hstep i s s' (by omega) (by omega) hI hbi) h
      have e : lo + (n + 1) = lo + 1 + n := by omega
      rw [e]; exact h2

theorem uintFor_inv_of_some {σ : Type} (body : Nat → σ → Option σ)
    (Inv : Nat → σ → Prop) (hi : Nat) (st st' : σ) (h0 : Inv 0 st)
    (hstep : ∀ i s s', i < hi → Inv i s → body i s = some s' → Inv (i + 1) s')
    (h : uintFor hi body st = some st') : Inv hi st' := by
  unfold uintFor at h
  split at h
  · have := forLoop_inv_of_some body Inv hi 0 st st' h0
      (fun i s s' _ hlt hI hb => hstep i s s' (by omega) hI hb) h
    simpa using this
  · simp at h

theorem set_of_getElem? {α : Type} (v : List α) (i : Nat) (x : α) (h : v[i]? = some x) :
    v.set i x = v := by
  apply List.ext_getElem?
  intro n
  by_cases hn : i = n
  · subst hn
    rcases List.getElem?_eq_some.mp h with ⟨hl, _⟩
    rw [List.getElem?_set_self hl, h]
  · rw [List.getElem?_set_ne hn]

theorem root_node_pr_step_loop (pi : ℚ) (S : vv_uint) (s : Nat) :
    ∀ (n lo : Nat) (Pr : v_dbl) (cur : ℚ), Pr[s]? = some cur →
      forLoop (root_node_pr_step pi S s) n lo Pr
        = (forLoop (fun p c => (vvget S s p).map fun b =>
            c * (if b = 0 then 1 - pi else pi)) n lo cur).map fun x => Pr.set s x := by
  intro n
  induction n with
  | zero =>
    intro lo Pr cur h
    simp [forLoop, set_of_getElem? Pr s cur h]
  | succ n ih =>
    intro lo Pr cur h
    have hs : s < Pr.length := by
      rcases List.getElem?_eq_some.mp h with ⟨hl, _⟩
      exact hl
    simp only [forLoop, root_node_pr_step, h, Option.some_bind, vset, hs, if_true]
    cases hv : vvget S s lo with
    | none => simp
    | some b =>
      simp only [Option.some_bind, Option.map_some']
      rw [ih (lo + 1) (Pr.set s (cur * (if b = 0 then 1 - pi else pi))) _
        (List.getElem?_set_self hs)]
      simp

theorem root_node_pr_row_eq (pi : ℚ) (S : vv_uint) (s : Nat) (Pr : v_dbl) :
    root_node_pr_row pi S s Pr
      = if s < Pr.length then (root_node_pr_value pi S s).map fun x => Pr.set s x
        else none := by
  by_cases hs : s < Pr.length
  · simp only [root_node_pr_row, vset, hs, if_true, Option.some_bind, root_node_pr_value]
    cases hS0 : S[0]? with
    | none => simp
    | some S0 =>
      simp only [Option.some_bind, uintFor]
      split
      · rw [root_node_pr_step_loop pi S s S0.length 0 (Pr.set s 1) 1
          (List.getElem?_set_self hs)]
        simp
      · simp
  · simp [root_node_pr_row, vset, hs]


theorem root_node_pr_of_some (pi : ℚ) (S : vv_uint) (Pr out : v_dbl)
    (h : root_node_pr Pr pi S = some out) :
    out.length = Pr.length ∧
      ∀ k, k < S.length → ∃ x, root_node_pr_value pi S k = some x ∧ out[k]? = some x := by
  refine uintFor_inv_of_some (root_node_pr_row pi S)
    (fun s v => v.length = Pr.length ∧
      ∀ k, k < s → ∃ x, root_node_pr_value pi S k = some x ∧ v[k]? = some x)
    S.length Pr out ⟨rfl, fun k hk => by omega⟩ ?_ h
  rintro s v v' _ ⟨hlen, hdone⟩ hb
  rw [root_node_pr_row_eq] at hb
  split at hb
  · rename_i hs
    cases hval : root_node_pr_value pi S s with
    | none => simp [hval] at hb
    | some x =>
      simp only [hval, Option.map_some', Option.some.injEq] at hb
      subst hb
      refine ⟨by simp [hlen], fun k hk => ?_⟩
      by_cases hks : k = s
      · subst hks
        exact ⟨x, hval, List.getElem?_set_self hs⟩
      · obtain ⟨y, hy1, hy2⟩ := hdone k (by omega)
        exact ⟨y, hy1, by rw [List.getElem?_set_ne (fun e => hks e.symm)]; exact hy2⟩
  · simp at hb

theorem forLoop_root_node_pr_fixed (pi : ℚ) (S : vv_uint) (Q : v_dbl) :
    ∀ (n lo : Nat),
      (∀ k, lo ≤ k → k < lo + n →
        ∃ x, root_node_pr_value pi S k = some x ∧ Q[k]? = some x) →
      forLoop (root_node_pr_row pi S) n lo Q = some Q := by
  intro n
  induction n with
  | zero => intro lo _; rfl
  | succ n ih =>
    intro lo h
    obtain ⟨x, hx1, hx2⟩ := h lo (Nat.le_refl lo) (by omega)
    have hs : lo < Q.length := by
      rcases List.getElem?_eq_some.mp hx2 with ⟨hl, _⟩
      exact hl
    have hrow : root_node_pr_row pi S lo Q = some Q := by
      rw [root_node_pr_row_eq, if_pos hs, hx1, Option.map_some', set_of_getElem? Q lo x hx2]
    simp only [forLoop, hrow, Option.some_bind]
    exact ih (lo + 1) (fun k hk1 hk2 => h k (by omega) (by omega))

theorem root_node_pr_idem (pi : ℚ) (S : vv_uint) (Pr out : v_dbl)
    (h : root_node_pr Pr pi S = some out) : root_node_pr out pi S = some out := by
  obtain ⟨_, hvals⟩ := root_node_pr_of_some pi S Pr out h
  have hN : S.length ≤ UINT_MAX := by
    unfold root_node_pr uintFor at h
    split at h
    · assumption
    · simp at h
  unfold root_node_pr uintFor
  rw [if_pos hN]
  exact forLoop_root_node_pr_fixed pi S out S.length 0
    (fun k _ hk => hvals k (by omega))

theorem transition_mat_cons (g l : ℚ) (t : v_dbl) (a b c d : ℚ) (t0 t1 : v_dbl)
    (rest : vv_dbl) :
    transition_mat (g :: l :: t) ((a :: b :: t0) :: (c :: d :: t1) :: rest)
      = some (((1 - g) :: g :: t0) :: (l :: (1 - l) :: t1) :: rest) := by
  simp [transition_mat, transition_mat_ref, PrRef.read, uintFor, UINT_MAX, forLoop,
        transition_mat_entry, vvset, vset]

theorem transition_mat_of_some (pr : v_dbl) (M M' : vv_dbl)
    (h : transition_mat pr M = some M') :
    ∃ g l t a b t0 c d t1 rest, pr = g :: l :: t ∧
      M = (a :: b :: t0) :: (c :: d :: t1) :: rest ∧
      M' = ((1 - g) :: g :: t0) :: (l :: (1 - l) :: t1) :: rest := by
  rcases pr with _ | ⟨g, _ | ⟨l, t⟩⟩
  · rcases M with _ | ⟨r0, M⟩ <;>
      simp [transition_mat, transition_mat_ref, PrRef.read, uintFor, UINT_MAX, forLoop,
        transition_mat_entry, vvset] at h
  · rcases M with _ | ⟨_ | ⟨a, _ | ⟨b, t0⟩⟩, _ | ⟨r1, rest⟩⟩ <;>
      simp [transition_mat, transition_mat_ref, PrRef.read, uintFor, UINT_MAX, forLoop,
        transition_mat_entry, vvset,
        vset] at h
  · rcases M with _ | ⟨_ | ⟨a, _ | ⟨b, t0⟩⟩, _ | ⟨_ | ⟨c, _ | ⟨d, t1⟩⟩, rest⟩⟩ <;>
      simp [transition_mat, transition_mat_ref, PrRef.read, uintFor, UINT_MAX, forLoop,
        transition_mat_entry, vvset,
        vset] at h
    exact ⟨g, l, t, a, b, t0, c, d, t1, rest, rfl, rfl, h.symm⟩

theorem transition_mat_idem (pr : v_dbl) (M M' : vv_dbl)
    (h : transition_mat pr M = some M') : transition_mat pr M' = some M' := by
  obtain ⟨g, l, t, a, b, t0, c, d, t1, rest, rfl, rfl, rfl⟩ := transition_mat_of_some pr M M' h
  exact transition_mat_cons g l t _ _ _ _ t0 t1 rest


theorem set_mu_eq (td : TreeData) (g l a b c d : ℚ) (h : td.MU = [[a, b], [c, d]]) :
    td.set_mu [g, l] = some { td with MU := [[1 - g, g], [l, 1 - l]] } := by
  simp [TreeData.set_mu, h, transition_mat_pair]

theorem set_psi_eq (td : TreeData) (g l a b c d : ℚ) (h : td.PSI = [[a, b], [c, d]]) :
    td.set_psi [g, l] = some { td with PSI := [[1 - g, g], [l, 1 - l]] } := by
  simp [TreeData.set_psi, h, transition_mat_pair]

theorem set_pi_total (td : TreeData) (N P : Nat) (pi : ℚ) (hS : Shape td.states N P)
    (hN : N ≤ UINT_MAX) (hP : P ≤ UINT_MAX) (hPi : td.Pi.length = N) :
    ∃ out, td.set_pi pi = some { td with Pi := out } ∧ out.length = N ∧
      ∀ s, s < N → out[s]? = some (∏ p in Finset.range P, root_factor pi td.states s p) := by
  have hlen : td.states.length = N := hS.1
  obtain ⟨out, h1, h2, h3⟩ := root_node_pr_spec pi td.states P td.Pi
    (by rw [hlen]; exact hN) hP hS.2 (by rw [hlen]; exact hPi)
  rw [hlen] at h2 h3
  exact ⟨out, by simp [TreeData.set_pi, h1], h2, h3⟩

theorem set_mu_ref_row0 (td : TreeData) (a b c d : ℚ) (h : td.MU = [[a, b], [c, d]]) :
    td.set_mu_ref (PrRef.row 0) = some { td with MU := [[1 - a, 1 - a], [1 - a, a]] } := by
  simp [TreeData.set_mu_ref, h, transition_mat_ref_row0]

/-- C11 (as stated, refuted): on the freshly constructed container the call
`set_mu(MU[0])`, whose argument is the row `MU[0]` of the matrix it refills, leaves
`MU = [[1, 1], [1, 0]]`; the same call repeated at once leaves
`MU = [[0, 0], [0, 1]]`, a different state. -/
theorem set_mu_alias_not_idempotent :
    ∃ td t1 t2, TreeData.ctor [[1], [0]] [0, 1] 2 = some td ∧
      td.set_mu_ref (PrRef.row 0) = some t1 ∧ t1.MU = [[1, 1], [1, 0]] ∧
      t1.set_mu_ref (PrRef.row 0) = some t2 ∧ t2.MU = [[0, 0], [0, 1]] ∧ t2 ≠ t1 := by
  have hc : TreeData.ctor [[1], [0]] [0, 1] 2 = some
      { nstates := 2, n := 2, nfuns := 1, nannotated := 2, A := [[1], [0]],
        Ntype := [0, 1], states := [[0], [1]], Pr := [[1, 1], [1, 1]], ll := 0,
        PSI := [[0, 0], [0, 0]], MU := [[0, 0], [0, 0]], eta := [0, 0], Pi := [0, 0] } := by
    decide
  have h1 : ∀ td : TreeData, td.MU = [[0, 0], [0, 0]] →
      td.set_mu_ref (PrRef.row 0) = some { td with MU := [[1, 1], [1, 0]] } := by
    intro td h
    rw [set_mu_ref_row0 td 0 0 0 0 h]
    norm_num
  have h2 : ∀ td : TreeData, td.MU = [[1, 1], [1, 0]] →
      td.set_mu_ref (PrRef.row 0) = some { td with MU := [[0, 0], [0, 1]] } := by
    intro td h
    rw [set_mu_ref_row0 td 1 1 1 0 h]
    norm_num
  refine ⟨_, _, _, hc, h1 _ rfl, rfl, h2 _ rfl, rfl, ?_⟩
  intro h
  have hMU := congrArg TreeData.MU h
  norm_num at hMU

/-- C11 (amended): setter idempotence for arguments that are not rows of the matrix
being refilled.  For every `TreeData` state: when a call of `set_mu` (`set_psi`)
whose argument vector lies outside `MU` (`PSI`), or a call of `set_eta` or `set_pi`
with any argument, completes with state `t`, the same call repeated at once on `t`
completes with exactly the state `t` again (so `MU`, `PSI`, `eta`, `Pi` and all
other fields are those of the single call). -/
theorem setters_idempotent (td : TreeData) :
    (∀ mu_ t, td.set_mu_ref (PrRef.outside mu_) = some t →
        t.set_mu_ref (PrRef.outside mu_) = some t) ∧
      (∀ psi_ t, td.set_psi_ref (PrRef.outside psi_) = some t →
        t.set_psi_ref (PrRef.outside psi_) = some t) ∧
      (∀ eta_ t, td.set_eta eta_ = some t → t.set_eta eta_ = some t) ∧
      (∀ pi_ t, td.set_pi pi_ = some t → t.set_pi pi_ = some t) := by
  refine ⟨?_, ?_, ?_, ?_⟩
  · intro mu_ t h
    simp only [TreeData.set_mu_ref, Option.map_eq_some'] at h
    obtain ⟨m, hm, rfl⟩ := h
    have h2 : transition_mat_ref (PrRef.outside mu_) m = some m :=
      transition_mat_idem mu_ td.MU m hm
    simp [TreeData.set_mu_ref, h2]
  · intro psi_ t h
    simp only [TreeData.set_psi_ref, Option.map_eq_some'] at h
    obtain ⟨m, hm, rfl⟩ := h
    have h2 : transition_mat_ref (PrRef.outside psi_) m = some m :=
      transition_mat_idem psi_ td.PSI m hm
    simp [TreeData.set_psi_ref, h2]
  · intro eta_ t h
    simp only [TreeData.set_eta, Option.some.injEq] at h
    subst h
    rfl
  · intro pi_ t h
    simp only [TreeData.set_pi, Option.map_eq_some'] at h
    obtain ⟨v, hv, rfl⟩ := h
    simp [TreeData.set_pi, root_node_pr_idem pi_ td.states td.Pi v hv]

theorem setters_idempotent_witness :
    ∃ td t1 t2 t3 t4, TreeData.ctor [[1], [0]] [0, 1] 2 = some td ∧
      td.set_mu_ref (PrRef.outside [3 / 10, 1 / 5]) = some t1 ∧
      t1.set_mu_ref (PrRef.outside [3 / 10, 1 / 5]) = some t1 ∧
      td.set_psi_ref (PrRef.outside [1 / 2, 1 / 4]) = some t2 ∧
      t2.set_psi_ref (PrRef.outside [1 / 2, 1 / 4]) = some t2 ∧
      td.set_eta [1 / 10, 1 / 20] = some t3 ∧ t3.set_eta [1 / 10, 1 / 20] = some t3 ∧
      td.set_pi (1 / 4) = some t4 ∧ t4.set_pi (1 / 4) = some t4 := by
  have hc : TreeData.ctor [[1], [0]] [0, 1] 2 = some
      { nstates := 2, n := 2, nfuns := 1, nannotated := 2, A := [[1], [0]],
        Ntype := [0, 1], states := [[0], [1]], Pr := [[1, 1], [1, 1]], ll := 0,
        PSI := [[0, 0], [0, 0]], MU := [[0, 0], [0, 0]], eta := [0, 0], Pi := [0, 0] } := by
    decide
  obtain ⟨out, h4, _, _⟩ := set_pi_total
    { nstates := 2, n := 2, nfuns := 1, nannotated := 2, A := [[1], [0]],
      Ntype := [0, 1], states := [[0], [1]], Pr := [[1, 1], [1, 1]], ll := 0,
      PSI := [[0, 0], [0, 0]], MU := [[0, 0], [0, 0]], eta := [0, 0], Pi := [0, 0] }
    2 1 (1 / 4) ⟨rfl, by decide⟩ (by decide) (by decide) rfl
  exact ⟨_, _, _, _, _, hc,
    set_mu_eq _ _ _ 0 0 0 0 rfl, (setters_idempotent _).1 _ _ (set_mu_eq _ _ _ 0 0 0 0 rfl),
    set_psi_eq _ _ _ 0 0 0 0 rfl,
    (setters_idempotent _).2.1 _ _ (set_psi_eq _ _ _ 0 0 0 0 rfl),
    rfl, (setters_idempotent _).2.2.1 _ _ rfl,
    h4, (setters_idempotent _).2.2.2 _ _ h4⟩

/-! ## Degenerate case and absent validation -/

/-- C12: degenerate case `P = 0`.  `states_mat(0)` has exactly one row and that row
is empty, and for every `pi` (and every previous content `x` of the one cell)
`root_node_pr` over `states_mat(0)` leaves the one-element vector `[1.0]`. -/
theorem degenerate_P0 :
    states_mat 0 = some [[]] ∧
      ∀ pi x : ℚ, ∃ S, states_mat 0 = some S ∧ root_node_pr [x] pi S = some [1] := by
  refine ⟨by decide, fun pi x => ⟨[[]], by decide, ?_⟩⟩
  simp [root_node_pr, uintFor, UINT_MAX, forLoop, root_node_pr_row, vset]

theorem TreeData_ctor_head (A0 : List Nat) (rest : vv_uint) (Ntype : v_uint)
    (nannotated : Nat) (S : vv_uint) (hP : 2 ^ A0.length ≤ UINT_MAX)
    (hS : states_mat A0.length = some S) (hSlen : S.length = 2 ^ A0.length) :
    TreeData.ctor (A0 :: rest) Ntype nannotated = some
      { nstates := 2 ^ A0.length
        n := to_uint (A0 :: rest).length
        nfuns := A0.length
        nannotated := nannotated
        A := A0 :: rest
        Ntype := Ntype
        states := S
        Pr := List.replicate (to_uint (A0 :: rest).length) (List.replicate (2 ^ A0.length) 1)
        ll := 0
        PSI := [[0, 0], [0, 0]]
        MU := [[0, 0], [0, 0]]
        eta := [0, 0]
        Pi := List.replicate (2 ^ A0.length) 0 } := by
  have hP' : A0.length ≤ UINT_MAX :=
    Nat.le_trans (Nat.le_of_lt (Nat.lt_two_pow A0.length)) hP
  have e1 : to_uint A0.length = A0.length := to_uint_of_le _ hP'
  have e3 : to_uint S.length = 2 ^ A0.length := by rw [hSlen]; exact to_uint_of_le _ hP
  simp only [TreeData.ctor, List.getElem?_cons_zero, Option.some_bind, e1, hS,
    resized_2x2_eq, e3, new_vector_array, vec_resize]
  simp

/-- C14 (as stated, refuted): the annotation matrix `[[0], [0, 1]]` has two rows of
different length, yet the constructor produces an instance (with `nfuns = 1` taken
from the first row); no error is raised. -/
theorem TreeData_ctor_ragged_accepted :
    (∃ r1 ∈ [[0], [0, 1]], ∃ r2 ∈ [[0], [0, 1]], r1.length ≠ r2.length) ∧
      ∃ td, TreeData.ctor [[0], [0, 1]] [0, 1] 2 = some td ∧ td.nfuns = 1 ∧
        td.A = [[0], [0, 1]] := by
  refine ⟨⟨[0], by simp, [0, 1], by simp, by decide⟩, ?_⟩
  have hc : TreeData.ctor [[0], [0, 1]] [0, 1] 2 = some
      { nstates := 2, n := 2, nfuns := 1, nannotated := 2, A := [[0], [0, 1]],
        Ntype := [0, 1], states := [[0], [1]], Pr := [[1, 1], [1, 1]], ll := 0,
        PSI := [[0, 0], [0, 0]], MU := [[0, 0], [0, 0]], eta := [0, 0], Pi := [0, 0] } := by
    decide
  exact ⟨_, hc, rfl, rfl⟩

/-- C14 (amended): rows of unequal width are not detected at construction.  For
every `A` containing two rows of different length whose first row has a width `P`
with `2 ^ P ≤ UINT_MAX`, the constructor produces an instance, with `nfuns = P` and
`nstates = 2 ^ P` taken from the first row, `states = states_mat(P)` and `A` stored
unchanged; there is no `InvalidDimension` error. -/
theorem TreeData_ctor_ragged (A : vv_uint) (Ntype : v_uint) (nannotated : Nat)
    (hrag : ∃ r1 ∈ A, ∃ r2 ∈ A, r1.length ≠ r2.length)
    (hP : 2 ^ (A.headD []).length ≤ UINT_MAX) :
    ∃ td S, TreeData.ctor A Ntype nannotated = some td ∧
      states_mat (A.headD []).length = some S ∧ td.states = S ∧
      td.nfuns = (A.headD []).length ∧ td.nstates = 2 ^ (A.headD []).length ∧
      td.A = A := by
  cases A with
  | nil =>
    obtain ⟨r1, hr1, _⟩ := hrag
    simp at hr1
  | cons A0 rest =>
    simp only [List.headD_cons] at hP ⊢
    obtain ⟨S, hS, hshape, _⟩ := states_mat_spec A0.length hP
    exact ⟨_, S, TreeData_ctor_head A0 rest Ntype nannotated S hP hS hshape.1, hS,
      rfl, rfl, rfl, rfl⟩

theorem TreeData_ctor_ragged_witness :
    (∃ r1 ∈ [[0, 1], [1], [9, 9, 9]], ∃ r2 ∈ [[0, 1], [1], [9, 9, 9]],
        r1.length ≠ r2.length) ∧
      2 ^ (([[0, 1], [1], [9, 9, 9]] : vv_uint).headD []).length ≤ UINT_MAX ∧
      ∃ td S, TreeData.ctor [[0, 1], [1], [9, 9, 9]] [0, 1, 2] 3 = some td ∧
        states_mat (([[0, 1], [1], [9, 9, 9]] : vv_uint).headD []).length = some S ∧
        td.states = S ∧
        td.nfuns = (([[0, 1], [1], [9, 9, 9]] : vv_uint).headD []).length ∧
        td.nstates = 2 ^ (([[0, 1], [1], [9, 9, 9]] : vv_uint).headD []).length ∧
        td.A = [[0, 1], [1], [9, 9, 9]] :=
  ⟨⟨[0, 1], by simp, [1], by simp, by decide⟩, by decide,
    TreeData_ctor_ragged [[0, 1], [1], [9, 9, 9]] [0, 1, 2] 3
      ⟨[0, 1], by simp, [1], by simp, by decide⟩ (by decide)⟩


/-! ## The pruning recursion on all-unknown subtrees -/

theorem bernoulli_product_sum_gen (f : Nat → Nat → ℚ) (P : Nat) :
    ∑ i in Finset.range (2 ^ P), ∏ p in Finset.range P, f p (i / 2 ^ p % 2)
      = ∏ p in Finset.range P, (f p 0 + f p 1) := by
  induction P with
  | zero => simp
  | succ P ih =>
    have e : 2 ^ (P + 1) = 2 ^ P + 2 ^ P := by rw [pow_succ]; omega
    rw [e, Finset.sum_range_add]
    have h1 : ∀ i ∈ Finset.range (2 ^ P),
        ∏ p in Finset.range (P + 1), f p (i / 2 ^ p % 2)
          = (∏ p in Finset.range P, f p (i / 2 ^ p % 2)) * f P 0 := by
      intro i hi
      rw [Finset.prod_range_succ, bit_below P i (Finset.mem_range.mp hi)]
    have h2 : ∀ i ∈ Finset.range (2 ^ P),
        ∏ p in Finset.range (P + 1), f p ((2 ^ P + i) / 2 ^ p % 2)
          = (∏ p in Finset.range P, f p (i / 2 ^ p % 2)) * f P 1 := by
      intro i hi
      rw [Finset.prod_range_succ, bit_top P i (Finset.mem_range.mp hi)]
      congr 1
      exact Finset.prod_congr rfl (fun p hp => by
        rw [bit_shift P i p (Finset.mem_range.mp hp)])
    rw [Finset.sum_congr rfl h1, Finset.sum_congr rfl h2, ← Finset.sum_mul,
      ← Finset.sum_mul, ih, Finset.prod_range_succ]
    ring

theorem list_range_map_sum (g : Nat → ℚ) (N : Nat) :
    ((List.range N).map g).sum = ∑ i in Finset.range N, g i := by
  induction N with
  | zero => simp
  | succ N ih => rw [List.sum_range_succ, Finset.sum_range_succ, ih]

theorem list_range_map_prod (g : Nat → ℚ) (N : Nat) :
    ((List.range N).map g).prod = ∏ i in Finset.range N, g i := by
  induction N with
  | zero => simp
  | succ N ih => rw [List.prod_range_succ, Finset.prod_range_succ, ih]

theorem states_mat_representable (P : Nat) (S : vv_uint) (h : states_mat P = some S) :
    2 ^ P ≤ UINT_MAX := by
  unfold states_mat pow2_uint at h
  split at h
  · assumption
  · simp at h

theorem states_mat_eq (P : Nat) (S : vv_uint) (h : states_mat P = some S) :
    S = (List.range (2 ^ P)).map fun i => (List.range P).map fun p => i / 2 ^ p % 2 := by
  obtain ⟨M, hM, hlen, hrows⟩ := states_mat_rows P (states_mat_representable P S h)
  have e : M = S := Option.some.inj (hM.symm.trans h)
  subst e
  apply List.ext_getElem?
  intro i
  by_cases hi : i < 2 ^ P
  · obtain ⟨row, hr, hrl, hbits⟩ := hrows i hi
    rw [hr, List.getElem?_map, List.getElem?_range hi, Option.map_some']
    congr 1
    apply List.ext_getElem?
    intro p
    by_cases hp : p < P
    · rw [hbits p hp, List.getElem?_map, List.getElem?_range hp, Option.map_some']
    · have h1 : row.length ≤ p := by omega
      have h2 : ((List.range P).map fun p => i / 2 ^ p % 2).length ≤ p := by simp; omega
      rw [List.getElem?_eq_none h1, List.getElem?_eq_none h2]
  · have h1 : M.length ≤ i := by omega
    have h2 : ((List.range (2 ^ P)).map fun i =>
        (List.range P).map fun p => i / 2 ^ p % 2).length ≤ i := by simp; omega
    rw [List.getElem?_eq_none h1, List.getElem?_eq_none h2]

theorem zip_replicate_map {α β γ : Type} (f : α × β → γ) (x : β) :
    ∀ (l : List α) (n : Nat), n = l.length →
      ((l.zip (List.replicate n x)).map f) = l.map fun a => f (a, x) := by
  intro l
  induction l with
  | nil => intro n _; simp
  | cons a t ih =>
    intro n hn
    cases n with
    | zero => simp at hn
    | succ m =>
      have hm : m = t.length := by simpa using hn
      simp [List.replicate_succ, ih m hm]

theorem leaf_pr_unknown (cv : Conventions) (eta : v_dbl) (a s : List Nat)
    (h : ∀ x ∈ a, cv.decode x = Obs.unknown) : leaf_pr cv eta a s = 1 := by
  unfold leaf_pr
  apply List.prod_eq_one
  intro q hq
  obtain ⟨ab, hab, rfl⟩ := List.mem_map.mp hq
  have hmem : ab.1 ∈ a := (List.of_mem_zip hab).1
  simp [emission, h ab.1 hmem]

theorem joint_transition_bits (M : vv_dbl) (P i j : Nat) :
    joint_transition M ((List.range P).map fun p => i / 2 ^ p % 2)
        ((List.range P).map fun p => j / 2 ^ p % 2)
      = ∏ p in Finset.range P, (M.getD (i / 2 ^ p % 2) []).getD (j / 2 ^ p % 2) 0 := by
  unfold joint_transition
  rw [List.zip_map', List.map_map, list_range_map_prod]
  rfl

theorem row_stochastic_bit (M : vv_dbl) (h : RowStochastic M) (k : Nat) :
    (M.getD (k % 2) []).getD 0 0 + (M.getD (k % 2) []).getD 1 0 = 1 := by
  obtain ⟨a, b, c, d, rfl, hab, hcd⟩ := h
  rcases Nat.mod_two_eq_zero_or_one k with hk | hk <;> rw [hk] <;> simpa

theorem child_factor_ones (M : vv_dbl) (hM : RowStochastic M) (P i : Nat) (S : vv_uint)
    (hS : states_mat P = some S) :
    child_factor S M (List.replicate (2 ^ P) 1)
      ((List.range P).map fun p => i / 2 ^ p % 2) = 1 := by
  have hlen : 2 ^ P = S.length := by rw [states_mat_eq P S hS]; simp
  unfold child_factor
  rw [zip_replicate_map _ 1 S (2 ^ P) hlen]
  simp only [mul_one]
  rw [states_mat_eq P S hS, List.map_map, list_range_map_sum]
  have e : ∀ j ∈ Finset.range (2 ^ P),
      ((fun a => joint_transition M ((List.range P).map fun p => i / 2 ^ p % 2) a) ∘
        fun i => (List.range P).map fun p => i / 2 ^ p % 2) j
        = ∏ p in Finset.range P,
            (fun p b => (M.getD (i / 2 ^ p % 2) []).getD b 0) p (j / 2 ^ p % 2) :=
    fun j _ => joint_transition_bits M P i j
  rw [Finset.sum_congr rfl e]
  exact (bernoulli_product_sum_gen
    (fun p b => (M.getD (i / 2 ^ p % 2) []).getD b 0) P).trans
    (Finset.prod_eq_one (fun p _ => row_stochastic_bit M hM (i / 2 ^ p)))


theorem leaf_row_ones (cv : Conventions) (td : TreeData) (P v : Nat)
    (hS : states_mat P = some td.states)
    (h : ∀ x ∈ td.A.getD v [], cv.decode x = Obs.unknown) :
    (td.states.map fun s => leaf_pr cv td.eta (td.A.getD v []) s)
      = List.replicate (2 ^ P) 1 := by
  have hlen : td.states.length = 2 ^ P := by rw [states_mat_eq P td.states hS]; simp
  rw [← hlen]
  apply List.ext_getElem?
  intro k
  rw [List.getElem?_map, List.getElem?_replicate]
  by_cases hk : k < td.states.length
  · rw [List.getElem?_eq_getElem hk, Option.map_some', if_pos hk,
      leaf_pr_unknown cv td.eta _ _ h]
  · rw [List.getElem?_eq_none (Nat.le_of_not_lt hk), if_neg hk]
    rfl

theorem internal_row_ones (cv : Conventions) (td : TreeData) (P : Nat) (kids : List Nat)
    (Pr : vv_dbl) (hS : states_mat P = some td.states) (hMU : RowStochastic td.MU)
    (hPSI : RowStochastic td.PSI)
    (hk : ∀ c ∈ kids, Pr.getD c [] = List.replicate (2 ^ P) 1) :
    (td.states.map fun s =>
        (kids.map fun c =>
          child_factor td.states (transition_of cv td c) (Pr.getD c []) s).prod)
      = List.replicate (2 ^ P) 1 := by
  have hlen : td.states.length = 2 ^ P := by rw [states_mat_eq P td.states hS]; simp
  have hrow : ∀ s ∈ td.states,
      (kids.map fun c =>
        child_factor td.states (transition_of cv td c) (Pr.getD c []) s).prod = 1 := by
    intro s hs
    rw [states_mat_eq P td.states hS] at hs
    obtain ⟨i, _, rfl⟩ := List.mem_map.mp hs
    apply List.prod_eq_one
    intro q hq
    obtain ⟨c, hc, rfl⟩ := List.mem_map.mp hq
    have hM : RowStochastic (transition_of cv td c) := by
      unfold transition_of
      split
      · exact hMU
      · exact hPSI
    rw [hk c hc]
    exact child_factor_ones _ hM P i td.states hS
  rw [← hlen]
  apply List.ext_getElem?
  intro k
  rw [List.getElem?_map, List.getElem?_replicate]
  by_cases hk2 : k < td.states.length
  · have hmem : td.states[k] ∈ td.states := List.getElem_mem hk2
    rw [List.getElem?_eq_getElem hk2, Option.map_some', if_pos hk2, hrow _ hmem]
  · rw [List.getElem?_eq_none (Nat.le_of_not_lt hk2), if_neg hk2]
    rfl

theorem prune_nodes_unknown (cv : Conventions) (topo : Topology) (td : TreeData)
    (P n : Nat) (hS : states_mat P = some td.states) (hMU : RowStochastic td.MU)
    (hPSI : RowStochastic td.PSI) (hvalid : topo.Valid n td.Ntype) :
    ∀ (vs pre : List Nat) (Pr : vv_dbl), topo.order = pre ++ vs → Pr.length = n →
      (∀ u ∈ pre, UnknownSubtree cv topo td.A u →
        Pr[u]? = some (List.replicate (2 ^ P) 1)) →
      ∃ Pr', prune_nodes cv topo td vs Pr = some Pr' ∧
        ∀ u ∈ topo.order, UnknownSubtree cv topo td.A u →
          Pr'[u]? = some (List.replicate (2 ^ P) 1) := by
  intro vs
  induction vs with
  | nil =>
    intro pre Pr hord _ hinv
    refine ⟨Pr, rfl, ?_⟩
    rw [hord, List.append_nil]
    exact hinv
  | cons v vs ih =>
    intro pre Pr hord hlen hinv
    obtain ⟨hnodup, hlt, hpost⟩ := hvalid
    have hi : pre.length < topo.order.length := by rw [hord]; simp
    have hget : topo.order.getD pre.length 0 = v := by
      rw [hord, List.getD_eq_getElem?_getD, List.getElem?_append_right (Nat.le_refl _)]
      simp
    have htake : topo.order.take pre.length = pre := by
      rw [hord, List.take_left']
      rfl
    have hv_mem : v ∈ topo.order := by rw [hord]; simp
    have hv_lt : v < Pr.length := by rw [hlen]; exact hlt v hv_mem
    have hv_notin : v ∉ pre := by
      rw [hord] at hnodup
      have := (List.nodup_append.mp hnodup).2.2
      intro hmem
      exact this hmem (List.mem_cons_self _ _)
    have hord' : topo.order = (pre ++ [v]) ++ vs := by rw [hord]; simp
    have hstep : ∃ row, prune_node cv topo td Pr v = some (Pr.set v row) ∧
        (UnknownSubtree cv topo td.A v → row = List.replicate (2 ^ P) 1) := by
      by_cases hleaf : topo.leaf.getD v false = true
      · have e : prune_node cv topo td Pr v = some (Pr.set v
            (td.states.map fun s => leaf_pr cv td.eta (td.A.getD v []) s)) := by
          simp only [prune_node, hleaf, if_true]
        refine ⟨_, e, ?_⟩
        intro hu
        cases hu with
        | leaf _ _ hcells => exact leaf_row_ones cv td P v hS hcells
        | node _ hl _ => rw [hleaf] at hl; cases hl
      · have hleaf' : topo.leaf.getD v false = false := by simpa using hleaf
        obtain ⟨hne, hkids⟩ := hpost pre.length hi (by rw [hget]; exact hleaf')
        rw [hget] at hne hkids
        rw [htake] at hkids
        have e : prune_node cv topo td Pr v = some (Pr.set v
            (td.states.map fun s =>
              ((topo.offspring.getD v []).map fun c =>
                child_factor td.states (transition_of cv td c) (Pr.getD c []) s).prod)) := by
          simp only [prune_node, hleaf', Bool.false_eq_true, if_false, hne]
          rw [if_pos (fun c hc => (hkids c hc).2)]
        refine ⟨_, e, ?_⟩
        · intro hu
          cases hu with
          | leaf _ hl _ => rw [hleaf'] at hl; cases hl
          | node _ _ hk =>
            apply internal_row_ones cv td P _ Pr hS hMU hPSI
            intro c hc
            have := hinv c (hkids c hc).1 (hk c hc)
            rw [List.getD_eq_getElem?_getD, this]
            rfl
    obtain ⟨row, hrow, hrow_ones⟩ := hstep
    obtain ⟨Pr', h1, h2⟩ := ih (pre ++ [v]) (Pr.set v row) hord' (by simp [hlen])
      (by
        intro u hu hunk
        rcases List.mem_append.mp hu with hpre | hlast
        · have hne : v ≠ u := fun e => hv_notin (e ▸ hpre)
          rw [List.getElem?_set_ne hne]
          exact hinv u hpre hunk
        · have e : u = v := by simpa using hlast
          subst e
          rw [List.getElem?_set_self hv_lt, hrow_ones hunk])
    exact ⟨Pr', by simp only [prune_nodes, hrow, Option.some_bind, h1], h2⟩


theorem two_node_topology_valid (Ntype : v_uint) (h : 2 ≤ Ntype.length) :
    two_node_topology.Valid 2 Ntype := by
  refine ⟨by decide, by decide, ?_⟩
  intro i hi hleaf
  have hi2 : i < 2 := hi
  interval_cases i
  · simp [two_node_topology] at hleaf
  · refine ⟨by decide, ?_⟩
    intro c hc
    have hc1 : c = 1 := by simpa [two_node_topology] using hc
    subst hc1
    exact ⟨by decide, by omega⟩

theorem two_node_unknown (A : vv_uint) (h : ∀ a ∈ A.getD 1 [], 2 ≤ a) :
    UnknownSubtree sample_conventions two_node_topology A 0 := by
  refine UnknownSubtree.node 0 rfl ?_
  intro c hc
  have hc1 : c = 1 := by simpa [two_node_topology] using hc
  subst hc1
  refine UnknownSubtree.leaf 1 rfl ?_
  intro a ha
  have h2 := h a ha
  have h0 : a ≠ 0 := by omega
  have h1 : a ≠ 1 := by omega
  simp [sample_conventions, h0, h1]

/-- C15 (as stated, refuted on the engine modelled from the spec): on a freshly
constructed container (no setter called, so `MU` and `PSI` are zero-filled), in
the two-node tree whose only leaf has an unknown observation, the root `0` has an
all-unknown subtree but the recursion leaves `Pr[0][0] = 0`, not `1`. -/
theorem prune_fresh_container_root_zero :
    ∃ td Pr', TreeData.ctor [[9], [9]] [0, 0] 0 = some td ∧
      two_node_topology.Valid td.Pr.length td.Ntype ∧
      UnknownSubtree sample_conventions two_node_topology td.A 0 ∧
      prune sample_conventions two_node_topology td = some Pr' ∧
      vvget Pr' 0 0 = some 0 := by
  have hc : TreeData.ctor [[9], [9]] [0, 0] 0 = some
      { nstates := 2, n := 2, nfuns := 1, nannotated := 0, A := [[9], [9]],
        Ntype := [0, 0], states := [[0], [1]], Pr := [[1, 1], [1, 1]], ll := 0,
        PSI := [[0, 0], [0, 0]], MU := [[0, 0], [0, 0]], eta := [0, 0], Pi := [0, 0] } := by
    decide
  have hp : prune sample_conventions two_node_topology
      { nstates := 2, n := 2, nfuns := 1, nannotated := 0, A := [[9], [9]],
        Ntype := [0, 0], states := [[0], [1]], Pr := [[1, 1], [1, 1]], ll := 0,
        PSI := [[0, 0], [0, 0]], MU := [[0, 0], [0, 0]], eta := [0, 0], Pi := [0, 0] }
      = some [[0, 0], [1, 1]] := by
    simp [prune, prune_nodes, prune_node, two_node_topology, sample_conventions, leaf_pr,
      emission, child_factor, joint_transition, transition_of]
    rfl
  exact ⟨_, _, hc, two_node_topology_valid _ (by decide),
    two_node_unknown _ (by decide), hp, rfl⟩

/-- C15 (amended; the engine is modelled from the spec): when every row of the two
transition matrices `MU` and `PSI` sums to `1` (as after `set_mu` and `set_psi`),
`states` is `states_mat(P)` and the topology meets its preconditions, the pruning
recursion completes and, for every node `v` whose entire subtree has only unknown
leaf observations, `Pr[v][s] = 1` for every joint state `s < 2 ^ P`. -/
theorem prune_unknown_subtree (cv : Conventions) (topo : Topology) (td : TreeData)
    (P : Nat) (hS : states_mat P = some td.states) (hMU : RowStochastic td.MU)
    (hPSI : RowStochastic td.PSI) (hvalid : topo.Valid td.Pr.length td.Ntype) :
    ∃ Pr', prune cv topo td = some Pr' ∧
      ∀ v ∈ topo.order, UnknownSubtree cv topo td.A v →
        ∀ s, s < 2 ^ P → vvget Pr' v s = some 1 := by
  obtain ⟨Pr', h1, h2⟩ := prune_nodes_unknown cv topo td P td.Pr.length hS hMU hPSI hvalid
    topo.order [] (td.Pr.map fun row => row.map fun _ => 1) rfl (by simp)
    (fun u hu _ => by simp at hu)
  refine ⟨Pr', h1, fun v hv hunk s hs => ?_⟩
  simp [vvget, h2 v hv hunk, hs]


theorem prune_unknown_subtree_witness :
    ∃ td0 td, TreeData.ctor [[9], [9]] [0, 0] 0 = some td0 ∧
      td0.calls [Call.set_mu [3 / 10, 1 / 5], Call.set_psi [1 / 2, 1 / 4]] = some td ∧
      states_mat 1 = some td.states ∧ RowStochastic td.MU ∧ RowStochastic td.PSI ∧
      two_node_topology.Valid td.Pr.length td.Ntype ∧
      UnknownSubtree sample_conventions two_node_topology td.A 0 ∧
      ∃ Pr', prune sample_conventions two_node_topology td = some Pr' ∧
        ∀ v ∈ two_node_topology.order,
          UnknownSubtree sample_conventions two_node_topology td.A v →
            ∀ s, s < 2 ^ 1 → vvget Pr' v s = some 1 := by
  have hc : TreeData.ctor [[9], [9]] [0, 0] 0 = some
      { nstates := 2, n := 2, nfuns := 1, nannotated := 0, A := [[9], [9]],
        Ntype := [0, 0], states := [[0], [1]], Pr := [[1, 1], [1, 1]], ll := 0,
        PSI := [[0, 0], [0, 0]], MU := [[0, 0], [0, 0]], eta := [0, 0], Pi := [0, 0] } := by
    decide
  have hcalls : TreeData.calls
      { nstates := 2, n := 2, nfuns := 1, nannotated := 0, A := [[9], [9]],
        Ntype := [0, 0], states := [[0], [1]], Pr := [[1, 1], [1, 1]], ll := 0,
        PSI := [[0, 0], [0, 0]], MU := [[0, 0], [0, 0]], eta := [0, 0], Pi := [0, 0] }
      [Call.set_mu [3 / 10, 1 / 5], Call.set_psi [1 / 2, 1 / 4]] = some
      { nstates := 2, n := 2, nfuns := 1, nannotated := 0, A := [[9], [9]],
        Ntype := [0, 0], states := [[0], [1]], Pr := [[1, 1], [1, 1]], ll := 0,
        PSI := [[1 - 1 / 2, 1 / 2], [1 / 4, 1 - 1 / 4]],
        MU := [[1 - 3 / 10, 3 / 10], [1 / 5, 1 - 1 / 5]], eta := [0, 0], Pi := [0, 0] } := by
    simp only [TreeData.calls, TreeData.call, TreeData.set_mu, TreeData.set_psi,
      transition_mat_pair, Option.map_some', Option.some_bind]
  have hS : states_mat 1 = some [[0], [1]] := by decide
  have hMU : RowStochastic [[1 - 3 / 10, 3 / 10], [1 / 5, 1 - 1 / 5]] :=
    ⟨_, _, _, _, rfl, by norm_num, by norm_num⟩
  have hPSI : RowStochastic [[1 - 1 / 2, 1 / 2], [1 / 4, 1 - 1 / 4]] :=
    ⟨_, _, _, _, rfl, by norm_num, by norm_num⟩
  exact ⟨_, _, hc, hcalls, hS, hMU, hPSI, two_node_topology_valid _ (by decide),
    two_node_unknown _ (by decide),
    prune_unknown_subtree sample_conventions two_node_topology _ 1 hS hMU hPSI
      (two_node_topology_valid _ (by decide))⟩


/-! ## Dimensions and index safety under setter calls -/

theorem shape_2x2 (M : vv_dbl) (h : Shape M 2 2) : ∃ a b c d : ℚ, M = [[a, b], [c, d]] := by
  obtain ⟨hlen, hrows⟩ := h
  rcases M with _ | ⟨r0, _ | ⟨r1, _ | ⟨r2, rest⟩⟩⟩
  · simp at hlen
  · simp at hlen
  · have h0 := hrows r0 (by simp)
    have h1 := hrows r1 (by simp)
    rcases r0 with _ | ⟨a, _ | ⟨b, _ | ⟨x, t⟩⟩⟩
    · simp at h0
    · simp at h0
    · rcases r1 with _ | ⟨c, _ | ⟨d, _ | ⟨y, u⟩⟩⟩
      · simp at h1
      · simp at h1
      · exact ⟨a, b, c, d, rfl⟩
      · simp at h1
    · simp at h0
  · simp at hlen

theorem shape_2x2_literal (a b c d : ℚ) : Shape [[a, b], [c, d]] 2 2 := by
  refine ⟨rfl, ?_⟩
  intro r hr
  simp only [List.mem_cons, List.mem_singleton, List.not_mem_nil, or_false] at hr
  rcases hr with h | h <;> subst h <;> rfl

theorem transition_mat_total (pr : v_dbl) (M : vv_dbl) (hM : Shape M 2 2)
    (hpr : 2 ≤ pr.length) : ∃ M', transition_mat pr M = some M' ∧ Shape M' 2 2 := by
  obtain ⟨a, b, c, d, rfl⟩ := shape_2x2 M hM
  rcases pr with _ | ⟨g, _ | ⟨l, t⟩⟩
  · simp at hpr
  · simp at hpr
  · exact ⟨_, transition_mat_cons g l t a b c d [] [] [], shape_2x2_literal _ _ _ _⟩

theorem call_dims (td : TreeData) (n P : Nat) (c : Call) (hD : Dims td n P)
    (hP : 2 ^ P ≤ UINT_MAX) (hc : c.two_elements = true) :
    ∃ td', td.call c = some td' ∧ Dims td' n P ∧
      (c.eta_pair = true → td.eta.length = 2 → td'.eta.length = 2) := by
  obtain ⟨hst, hPr, hPi, hMU, hPSI⟩ := hD
  have hP' : P ≤ UINT_MAX := Nat.le_trans (Nat.le_of_lt (Nat.lt_two_pow P)) hP
  cases c with
  | set_mu mu_ =>
    have h2 : 2 ≤ mu_.length := by simpa [Call.two_elements] using hc
    obtain ⟨M', hM', hsh⟩ := transition_mat_total mu_ td.MU hMU h2
    exact ⟨{ td with MU := M' }, by simp [TreeData.call, TreeData.set_mu, hM'],
      ⟨hst, hPr, hPi, hsh, hPSI⟩, fun _ h => h⟩
  | set_psi psi_ =>
    have h2 : 2 ≤ psi_.length := by simpa [Call.two_elements] using hc
    obtain ⟨M', hM', hsh⟩ := transition_mat_total psi_ td.PSI hPSI h2
    exact ⟨{ td with PSI := M' }, by simp [TreeData.call, TreeData.set_psi, hM'],
      ⟨hst, hPr, hPi, hMU, hsh⟩, fun _ h => h⟩
  | set_eta eta_ =>
    exact ⟨{ td with eta := eta_ }, rfl, ⟨hst, hPr, hPi, hMU, hPSI⟩,
      fun h _ => by simpa [Call.eta_pair] using h⟩
  | set_pi pi_ =>
    obtain ⟨out, h1, h2, _⟩ := set_pi_total td (2 ^ P) P pi_ hst hP hP' hPi
    exact ⟨{ td with Pi := out }, by simp [TreeData.call, h1],
      ⟨hst, hPr, h2, hMU, hPSI⟩, fun _ h => h⟩

theorem calls_dims (n P : Nat) (hP : 2 ^ P ≤ UINT_MAX) :
    ∀ (cs : List Call) (td : TreeData), Dims td n P →
      (∀ c ∈ cs, c.two_elements = true) →
      ∃ td', td.calls cs = some td' ∧ Dims td' n P ∧
        ((∀ c ∈ cs, c.eta_pair = true) → td.eta.length = 2 → td'.eta.length = 2) := by
  intro cs
  induction cs with
  | nil => intro td hD _; exact ⟨td, rfl, hD, fun _ h => h⟩
  | cons c cs ih =>
    intro td hD hcs
    obtain ⟨td1, h1, hD1, he1⟩ := call_dims td n P c hD hP (hcs c (List.mem_cons_self _ _))
    obtain ⟨td2, h2, hD2, he2⟩ := ih td1 hD1 (fun x hx => hcs x (List.mem_cons_of_mem _ hx))
    refine ⟨td2, by simp [TreeData.calls, h1, h2], hD2, fun hall heta => ?_⟩
    exact he2 (fun x hx => hall x (List.mem_cons_of_mem _ hx))
      (he1 (hall c (List.mem_cons_self _ _)) heta)

theorem ctor_dims (A : vv_uint) (Ntype : v_uint) (nannotated P : Nat) (hne : A ≠ [])
    (hA : ∀ row ∈ A, row.length = P) (hP : 2 ^ P ≤ UINT_MAX) :
    ∃ td, TreeData.ctor A Ntype nannotated = some td ∧ Dims td (to_uint A.length) P ∧
      td.eta.length = 2 := by
  obtain ⟨S, hS, hshape, _⟩ := states_mat_spec P hP
  cases A with
  | nil => exact absurd rfl hne
  | cons A0 rest =>
    have hA0 : A0.length = P := hA A0 (List.mem_cons_self _ _)
    subst hA0
    refine ⟨_, TreeData_ctor_head A0 rest Ntype nannotated S hP hS hshape.1, ?_, rfl⟩
    exact ⟨hshape, shape_new_vector_array _ _ _, by simp,
      shape_2x2_literal 0 0 0 0, shape_2x2_literal 0 0 0 0⟩


/-- C16 (as stated, refuted): after construction from `[[1], [0]]`, the single call
`set_eta` with a three-element vector completes and leaves `eta` with length `3`,
not `2`: `set_eta` assigns the vector, so it does resize. -/
theorem set_eta_resizes :
    [[1], [0]] ≠ ([] : vv_uint) ∧ (∀ row ∈ ([[1], [0]] : vv_uint), row.length = 1) ∧
      ∃ td td', TreeData.ctor [[1], [0]] [0, 1] 2 = some td ∧ td.eta.length = 2 ∧
        td.calls [Call.set_eta [1, 2, 3]] = some td' ∧ td'.eta.length = 3 := by
  have hc : TreeData.ctor [[1], [0]] [0, 1] 2 = some
      { nstates := 2, n := 2, nfuns := 1, nannotated := 2, A := [[1], [0]],
        Ntype := [0, 1], states := [[0], [1]], Pr := [[1, 1], [1, 1]], ll := 0,
        PSI := [[0, 0], [0, 0]], MU := [[0, 0], [0, 0]], eta := [0, 0], Pi := [0, 0] } := by
    decide
  exact ⟨by decide, by decide, _, _, hc, rfl, rfl, rfl⟩

/-- C16 (amended): setters never resize when `set_eta` gets a pair.  For every
non-empty `A` with at most `UINT_MAX` rows, all of width `P` with
`2 ^ P ≤ UINT_MAX`, the constructor returns a `TreeData`, and every finite sequence
of setter calls (`set_mu` and `set_psi` with vectors of at least two elements,
`set_eta` with vectors of exactly two elements, `set_pi` with any value) completes
and keeps the dimensions fixed at construction: `states` is `2 ^ P × P`, `Pr` is
`n × 2 ^ P` with `n = |A|`, `Pi` has length `2 ^ P`, `MU` and `PSI` are 2×2, and
`eta` has length `2`. -/
theorem setters_never_resize (A : vv_uint) (Ntype : v_uint) (nannotated P : Nat)
    (hne : A ≠ []) (hA : ∀ row ∈ A, row.length = P) (hn : A.length ≤ UINT_MAX)
    (hP : 2 ^ P ≤ UINT_MAX) :
    ∃ td, TreeData.ctor A Ntype nannotated = some td ∧
      ∀ cs : List Call, (∀ c ∈ cs, c.two_elements = true ∧ c.eta_pair = true) →
        ∃ td', td.calls cs = some td' ∧
          Shape td'.states (2 ^ P) P ∧ Shape td'.Pr A.length (2 ^ P) ∧
          td'.Pi.length = 2 ^ P ∧ Shape td'.MU 2 2 ∧ Shape td'.PSI 2 2 ∧
          td'.eta.length = 2 := by
  obtain ⟨td, hc, hD, heta⟩ := ctor_dims A Ntype nannotated P hne hA hP
  rw [to_uint_of_le A.length hn] at hD
  refine ⟨td, hc, fun cs hcs => ?_⟩
  obtain ⟨td', h1, hD', he⟩ := calls_dims A.length P hP cs td hD (fun c hc => (hcs c hc).1)
  exact ⟨td', h1, hD'.1, hD'.2.1, hD'.2.2.1, hD'.2.2.2.1, hD'.2.2.2.2,
    he (fun c hc => (hcs c hc).2) heta⟩

theorem setters_never_resize_witness :
    [[1, 0], [0, 0], [9, 9]] ≠ ([] : vv_uint) ∧
      (∀ row ∈ ([[1, 0], [0, 0], [9, 9]] : vv_uint), row.length = 2) ∧
      ([[1, 0], [0, 0], [9, 9]] : vv_uint).length ≤ UINT_MAX ∧ 2 ^ 2 ≤ UINT_MAX ∧
      (∀ c ∈ [Call.set_mu [3 / 10, 1 / 5], Call.set_eta [1 / 10, 1 / 20],
          Call.set_pi (1 / 4), Call.set_psi [1 / 2, 1 / 4, 9], Call.set_pi 2],
        c.two_elements = true ∧ c.eta_pair = true) ∧
      ∃ td td', TreeData.ctor [[1, 0], [0, 0], [9, 9]] [0, 1, 1] 2 = some td ∧
        td.calls [Call.set_mu [3 / 10, 1 / 5], Call.set_eta [1 / 10, 1 / 20],
          Call.set_pi (1 / 4), Call.set_psi [1 / 2, 1 / 4, 9], Call.set_pi 2] = some td' ∧
        Shape td'.states (2 ^ 2) 2 ∧
        Shape td'.Pr ([[1, 0], [0, 0], [9, 9]] : vv_uint).length (2 ^ 2) ∧
        td'.Pi.length = 2 ^ 2 ∧ Shape td'.MU 2 2 ∧ Shape td'.PSI 2 2 ∧
        td'.eta.length = 2 := by
  have hcs : ∀ c ∈ [Call.set_mu [3 / 10, 1 / 5], Call.set_eta [1 / 10, 1 / 20],
      Call.set_pi (1 / 4), Call.set_psi [1 / 2, 1 / 4, 9], Call.set_pi 2],
      c.two_elements = true ∧ c.eta_pair = true := by
    simp [Call.two_elements, Call.eta_pair]
  obtain ⟨td, h1, h2⟩ := setters_never_resize [[1, 0], [0, 0], [9, 9]] [0, 1, 1] 2 2
    (by decide) (by decide) (by decide) (by decide)
  obtain ⟨td', h3, h4⟩ := h2 _ hcs
  exact ⟨by decide, by decide, by decide, by decide, hcs, td, td', h1, h3, h4⟩

/-- C19: index safety.  For every non-empty `A` whose rows all have width `P` with
`2 ^ P ≤ UINT_MAX`, the constructor completes, and so does every sequence of
`set_mu` / `set_psi` calls with vectors of at least two elements and `set_pi` calls
(and `set_eta` calls, which index nothing) issued afterwards.  In the embedding
every access `v[i]` into `pr`, `MU`, `PSI`, `Pi`, `states` and `A` is checked and an
index not below the length gives `none`, so a result `some _` means that the
out-of-range branch was never taken. -/
theorem index_safety (A : vv_uint) (Ntype : v_uint) (nannotated P : Nat)
    (hne : A ≠ []) (hA : ∀ row ∈ A, row.length = P) (hP : 2 ^ P ≤ UINT_MAX) :
    ∃ td, TreeData.ctor A Ntype nannotated = some td ∧
      ∀ cs : List Call, (∀ c ∈ cs, c.two_elements = true) →
        ∃ td', td.calls cs = some td' := by
  obtain ⟨td, hc, hD, _⟩ := ctor_dims A Ntype nannotated P hne hA hP
  refine ⟨td, hc, fun cs hcs => ?_⟩
  obtain ⟨td', h1, _⟩ := calls_dims (to_uint A.length) P hP cs td hD hcs
  exact ⟨td', h1⟩

theorem index_safety_witness :
    [[1, 0], [0, 0], [9, 9]] ≠ ([] : vv_uint) ∧
      (∀ row ∈ ([[1, 0], [0, 0], [9, 9]] : vv_uint), row.length = 2) ∧
      2 ^ 2 ≤ UINT_MAX ∧
      (∀ c ∈ [Call.set_pi (1 / 4), Call.set_mu [3 / 10, 1 / 5, 7],
          Call.set_psi [1 / 2, 1 / 4], Call.set_pi (-3)], c.two_elements = true) ∧
      ∃ td td', TreeData.ctor [[1, 0], [0, 0], [9, 9]] [0, 1, 1] 2 = some td ∧
        td.calls [Call.set_pi (1 / 4), Call.set_mu [3 / 10, 1 / 5, 7],
          Call.set_psi [1 / 2, 1 / 4], Call.set_pi (-3)] = some td' := by
  have hcs : ∀ c ∈ [Call.set_pi (1 / 4), Call.set_mu [3 / 10, 1 / 5, 7],
      Call.set_psi [1 / 2, 1 / 4], Call.set_pi (-3)], c.two_elements = true := by
    simp [Call.two_elements]
  obtain ⟨td, h1, h2⟩ := index_safety [[1, 0], [0, 0], [9, 9]] [0, 1, 1] 2 2
    (by decide) (by decide) (by decide)
  obtain ⟨td', h3⟩ := h2 _ hcs
  exact ⟨by decide, by decide, by decide, hcs, td, td', h1, h3⟩


/-! ## Closed form and range of the root prior -/

theorem bits_sum_eq_count (P : Nat) :
    ∀ i, i < 2 ^ P → ∑ p in Finset.range P, i / 2 ^ p % 2 = (Nat.digits 2 i).count 1 := by
  induction P with
  | zero =>
    intro i hi
    have h0 : i = 0 := by simpa using hi
    subst h0
    simp
  | succ P ih =>
    intro i hi
    by_cases h0 : i = 0
    · subst h0
      simp
    · have hpos : 0 < i := Nat.pos_of_ne_zero h0
      have hhalf : i / 2 < 2 ^ P := by
        rw [pow_succ] at hi
        omega
      rw [Nat.digits_def' (by norm_num) hpos, List.count_cons, Finset.sum_range_succ',
        ← ih (i / 2) hhalf]
      have e : ∀ p ∈ Finset.range P, i / 2 ^ (p + 1) % 2 = i / 2 / 2 ^ p % 2 := by
        intro p _
        rw [pow_succ, Nat.mul_comm, Nat.div_div_eq_div_mul]
      rw [Finset.sum_congr rfl e]
      have hb : i / 2 ^ 0 % 2 = if (i % 2 == 1) = true then 1 else 0 := by
        rcases Nat.mod_two_eq_zero_or_one i with h | h <;> simp [h]
      rw [hb]

theorem bits_sum_le (i P : Nat) : ∑ p in Finset.range P, i / 2 ^ p % 2 ≤ P := by
  have h : ∑ p in Finset.range P, i / 2 ^ p % 2 ≤ ∑ _p in Finset.range P, 1 :=
    Finset.sum_le_sum (fun p _ => by omega)
  simpa using h

theorem prod_bits_closed (x y : ℚ) (i P : Nat) :
    ∏ p in Finset.range P, (if i / 2 ^ p % 2 ≠ 0 then x else y)
      = x ^ (∑ p in Finset.range P, i / 2 ^ p % 2)
        * y ^ (P - ∑ p in Finset.range P, i / 2 ^ p % 2) := by
  induction P with
  | zero => simp
  | succ P ih =>
    have hle := bits_sum_le i P
    rw [Finset.prod_range_succ, Finset.sum_range_succ, ih]
    rcases Nat.mod_two_eq_zero_or_one (i / 2 ^ P) with h | h
    · have e : P + 1 - (∑ p in Finset.range P, i / 2 ^ p % 2 + 0)
          = (P - ∑ p in Finset.range P, i / 2 ^ p % 2) + 1 := by omega
      rw [h, e, pow_succ]
      simp
      ring
    · have e : P + 1 - (∑ p in Finset.range P, i / 2 ^ p % 2 + 1)
          = P - ∑ p in Finset.range P, i / 2 ^ p % 2 := by omega
      rw [h, e, pow_succ]
      simp
      ring

theorem bit_of_all_ones (P p : Nat) (hp : p < P) : (2 ^ P - 1) / 2 ^ p % 2 = 1 := by
  have h := Nat.testBit_two_pow_sub_one P p
  rw [Nat.testBit_to_div_mod] at h
  simpa [hp] using h

theorem set_pi_closed_form (td : TreeData) (P : Nat) (pi : ℚ)
    (hS : states_mat P = some td.states) (hPi : td.Pi.length = 2 ^ P) :
    ∃ td', td.set_pi pi = some td' ∧ td'.Pi.length = 2 ^ P ∧
      ∀ i, i < 2 ^ P → td'.Pi[i]? = some (∏ p in Finset.range P,
        if i / 2 ^ p % 2 ≠ 0 then pi else 1 - pi) := by
  have hP := states_mat_representable P td.states hS
  have hP' : P ≤ UINT_MAX := Nat.le_trans (Nat.le_of_lt (Nat.lt_two_pow P)) hP
  obtain ⟨S, hS2, hSlen, hrows⟩ := states_mat_rows P hP
  have eS : S = td.states := Option.some.inj (hS2.symm.trans hS)
  subst eS
  obtain ⟨S', hS', hshape, _⟩ := states_mat_spec P hP
  have eS' : S' = td.states := Option.some.inj (hS'.symm.trans hS)
  subst eS'
  obtain ⟨out, h1, h2, h3⟩ := set_pi_total td (2 ^ P) P pi hshape hP hP' hPi
  refine ⟨_, h1, h2, fun i hi => ?_⟩
  show out[i]? = _
  rw [h3 i hi]
  congr 1
  refine Finset.prod_congr rfl (fun p hp => ?_)
  obtain ⟨row, hr, _, hbits⟩ := hrows i hi
  have e1 : td.states.getD i [] = row := by rw [List.getD_eq_getElem?_getD, hr]; rfl
  have e2 : row.getD p 0 = i / 2 ^ p % 2 := by
    rw [List.getD_eq_getElem?_getD, hbits p (Finset.mem_range.mp hp)]; rfl
  simp only [root_factor, e1, e2]


theorem TreeData_ctor_width_wraps (A0 : List Nat) (hw : to_uint A0.length = 0) :
    TreeData.ctor [A0] [0] 1 = some
      { nstates := 1, n := 1, nfuns := 0, nannotated := 1, A := [A0], Ntype := [0],
        states := [[]], Pr := [[1]], ll := 0, PSI := [[0, 0], [0, 0]],
        MU := [[0, 0], [0, 0]], eta := [0, 0], Pi := [0] } := by
  have h0 : states_mat 0 = some [[]] := by decide
  simp only [TreeData.ctor, List.getElem?_cons_zero, Option.some_bind, hw, h0,
    resized_2x2_eq]
  rfl

theorem ctor_states (A : vv_uint) (Ntype : v_uint) (nannotated P : Nat) (hne : A ≠ [])
    (hA : ∀ row ∈ A, row.length = P) (hP : 2 ^ P ≤ UINT_MAX) :
    ∃ td, TreeData.ctor A Ntype nannotated = some td ∧ states_mat P = some td.states ∧
      td.Pi.length = 2 ^ P := by
  obtain ⟨S, hS, hshape, _⟩ := states_mat_spec P hP
  cases A with
  | nil => exact absurd rfl hne
  | cons A0 rest =>
    have hA0 : A0.length = P := hA A0 (List.mem_cons_self _ _)
    subst hA0
    refine ⟨_, TreeData_ctor_head A0 rest Ntype nannotated S hP hS hshape.1, ?_, ?_⟩
    · exact hS
    · simp

theorem zero_pow_of_pos (n : Nat) (h : 0 < n) : (0 : ℚ) ^ n = 0 :=
  zero_pow (Nat.pos_iff_ne_zero.mp h)

/-- C17 (as stated, refuted): for the one-row annotation matrix of width
`P = 2 ^ 32` the conversion of `A[0].size()` to `uint` gives `nfuns = 0`, the
constructor returns a container with a single state, and after `set_pi(1)` the
entry `Pi[0]` is `1`, whereas the closed form `(1 - pi) ^ P` is `0`. -/
theorem root_prior_width_wraps :
    [List.replicate (2 ^ 32) 0] ≠ ([] : vv_uint) ∧
      (∀ row ∈ ([List.replicate (2 ^ 32) 0] : vv_uint), row.length = 2 ^ 32) ∧
      ∃ td td', TreeData.ctor [List.replicate (2 ^ 32) 0] [0] 1 = some td ∧
        td.set_pi 1 = some td' ∧ td'.Pi[0]? = some 1 ∧
        (1 : ℚ) ^ (Nat.digits 2 0).count 1
          * (1 - 1) ^ (2 ^ 32 - (Nat.digits 2 0).count 1) = 0 := by
  have hw : to_uint (List.replicate (2 ^ 32) (0 : Nat)).length = 0 := by
    rw [List.length_replicate]; decide
  have hpi : ∀ td : TreeData, td.Pi = [0] → td.states = [[]] →
      td.set_pi 1 = some { td with Pi := [1] } := by
    intro td h hs
    simp [TreeData.set_pi, h, hs, root_node_pr, uintFor, UINT_MAX, forLoop,
      root_node_pr_row, vset]
  refine ⟨List.cons_ne_nil _ _, ?_, _, _, TreeData_ctor_width_wraps _ hw, hpi _ rfl rfl,
    rfl, ?_⟩
  · intro row hrow
    rw [List.mem_singleton.mp hrow, List.length_replicate]
  · have e : (Nat.digits 2 0).count 1 = 0 := by simp
    rw [e, sub_self, pow_zero, one_mul, Nat.sub_zero, zero_pow_of_pos _ (Nat.two_pow_pos 32)]

theorem foldl_mul_range (f : Nat → ℚ) (P : Nat) :
    (List.range P).foldl (fun acc p => acc * f p) 1 = ∏ p in Finset.range P, f p := by
  induction P with
  | zero => simp
  | succ P ih =>
    rw [List.range_succ, List.foldl_append, ih, Finset.prod_range_succ]
    rfl

/-- C17 (amended): closed form of the root prior by state index, over exact
rational arithmetic.  For every non-empty `A` whose rows all have width `P` with
`2 ^ P ≤ UINT_MAX`, the constructor returns a `TreeData` and `set_pi(pi)` on it
completes; afterwards `Pi` has length `2 ^ P` and, for every `i < 2 ^ P`, `Pi[i]` is
the product that the loop forms, starting from `1` and multiplying for
`p = 0, …, P - 1` in this order by `1 - pi` when bit `p` of `i` is `0` and by `pi`
otherwise.  In exact rational arithmetic (not in rounded floating point) this
product is `pi ^ k * (1 - pi) ^ (P - k)` where `k` is the number of `1` digits in
the binary representation of `i`; in particular `Pi[0] = (1 - pi) ^ P` and
`Pi[2 ^ P - 1] = pi ^ P`. -/
theorem root_prior_closed_form (A : vv_uint) (Ntype : v_uint) (nannotated P : Nat)
    (pi : ℚ) (hne : A ≠ []) (hA : ∀ row ∈ A, row.length = P) (hP : 2 ^ P ≤ UINT_MAX) :
    ∃ td td', TreeData.ctor A Ntype nannotated = some td ∧ td.set_pi pi = some td' ∧
      td'.Pi.length = 2 ^ P ∧
      (∀ i, i < 2 ^ P →
        td'.Pi[i]? = some ((List.range P).foldl
          (fun acc p => acc * (if i / 2 ^ p % 2 = 0 then 1 - pi else pi)) 1)) ∧
      (∀ i, i < 2 ^ P →
        td'.Pi[i]? = some (pi ^ (Nat.digits 2 i).count 1
          * (1 - pi) ^ (P - (Nat.digits 2 i).count 1))) ∧
      td'.Pi[0]? = some ((1 - pi) ^ P) ∧ td'.Pi[2 ^ P - 1]? = some (pi ^ P) := by
  obtain ⟨td, hc, hS, hPi⟩ := ctor_states A Ntype nannotated P hne hA hP
  obtain ⟨td', h1, h2, h3⟩ := set_pi_closed_form td P pi hS hPi
  have hpos : 0 < 2 ^ P := Nat.two_pow_pos _
  refine ⟨td, td', hc, h1, h2, ?_, ?_, ?_, ?_⟩
  · intro i hi
    rw [h3 i hi, foldl_mul_range]
    congr 1
    refine Finset.prod_congr rfl (fun p _ => ?_)
    by_cases hb : i / 2 ^ p % 2 = 0 <;> simp [hb]
  · intro i hi
    rw [h3 i hi, prod_bits_closed, bits_sum_eq_count P i hi]
  · rw [h3 0 hpos]
    simp
  · rw [h3 (2 ^ P - 1) (by omega)]
    congr 1
    rw [Finset.prod_congr rfl
      (fun p hp => by rw [bit_of_all_ones P p (Finset.mem_range.mp hp)])]
    simp

theorem root_prior_closed_form_witness :
    [[1, 0], [0, 0], [9, 9]] ≠ ([] : vv_uint) ∧
      (∀ row ∈ ([[1, 0], [0, 0], [9, 9]] : vv_uint), row.length = 2) ∧
      2 ^ 2 ≤ UINT_MAX ∧
      ∃ td td', TreeData.ctor [[1, 0], [0, 0], [9, 9]] [0, 1, 1] 2 = some td ∧
        td.set_pi (1 / 4) = some td' ∧ td'.Pi.length = 2 ^ 2 ∧
        (∀ i, i < 2 ^ 2 →
          td'.Pi[i]? = some ((List.range 2).foldl
            (fun acc p => acc * (if i / 2 ^ p % 2 = 0 then 1 - (1 / 4 : ℚ) else 1 / 4)) 1)) ∧
        (∀ i, i < 2 ^ 2 →
          td'.Pi[i]? = some ((1 / 4 : ℚ) ^ (Nat.digits 2 i).count 1
            * (1 - 1 / 4) ^ (2 - (Nat.digits 2 i).count 1))) ∧
        td'.Pi[0]? = some ((1 - 1 / 4 : ℚ) ^ 2) ∧
        td'.Pi[2 ^ 2 - 1]? = some ((1 / 4 : ℚ) ^ 2) :=
  ⟨by decide, by decide, by decide,
    root_prior_closed_form [[1, 0], [0, 0], [9, 9]] [0, 1, 1] 2 2 (1 / 4) (by decide)
      (by decide) (by decide)⟩

theorem root_node_pr_value_range (pi : ℚ) (h0 : 0 ≤ pi) (h1 : pi ≤ 1) (S : vv_uint)
    (s : Nat) (x : ℚ) (h : root_node_pr_value pi S s = some x) : 0 ≤ x ∧ x ≤ 1 := by
  unfold root_node_pr_value at h
  cases hS0 : S[0]? with
  | none => simp [hS0] at h
  | some S0 =>
    rw [hS0, Option.some_bind] at h
    refine uintFor_inv_of_some _ (fun _ cur => 0 ≤ cur ∧ cur ≤ 1) S0.length 1 x
      ⟨by norm_num, le_refl _⟩ ?_ h
    rintro p cur cur' _ ⟨hc0, hc1⟩ hstep
    cases hv : vvget S s p with
    | none => simp [hv] at hstep
    | some b =>
      simp only [hv, Option.map_some', Option.some.injEq] at hstep
      subst hstep
      have hf0 : 0 ≤ (if b = 0 then 1 - pi else pi) := by
        split
        · linarith
        · exact h0
      have hf1 : (if b = 0 then 1 - pi else pi) ≤ 1 := by
        split
        · linarith
        · exact h1
      exact ⟨mul_nonneg hc0 hf0, mul_le_one₀ hc1 hf0 hf1⟩

theorem root_node_pr_states_mat (pi : ℚ) (P : Nat) (Pr_root : v_dbl)
    (hP : 2 ^ P ≤ UINT_MAX) (hlen : Pr_root.length = 2 ^ P) :
    ∃ S out, states_mat P = some S ∧ root_node_pr Pr_root pi S = some out ∧
      out.length = 2 ^ P ∧
      ∀ i, i < 2 ^ P → out[i]? = some (∏ p in Finset.range P,
        (fun b : Nat => if b ≠ 0 then pi else 1 - pi) (i / 2 ^ p % 2)) := by
  obtain ⟨S, hS, hSlen, hrows⟩ := states_mat_rows P hP
  obtain ⟨S', hS', hshape, _⟩ := states_mat_spec P hP
  have eS : S' = S := Option.some.inj (hS'.symm.trans hS)
  rw [eS] at hshape
  have hP' : P ≤ UINT_MAX := Nat.le_trans (Nat.le_of_lt (Nat.lt_two_pow P)) hP
  obtain ⟨out, h1, h2, h3⟩ := root_node_pr_spec pi S P Pr_root (by rw [hSlen]; exact hP)
    hP' hshape.2 (by rw [hSlen]; exact hlen)
  rw [hSlen] at h2 h3
  refine ⟨S, out, hS, h1, h2, fun i hi => ?_⟩
  rw [h3 i hi]
  congr 1
  obtain ⟨row, hr, _, hbits⟩ := hrows i hi
  refine Finset.prod_congr rfl (fun p hp => ?_)
  have e1 : S.getD i [] = row := by rw [List.getD_eq_getElem?_getD, hr]; rfl
  have e2 : row.getD p 0 = i / 2 ^ p % 2 := by
    rw [List.getD_eq_getElem?_getD, hbits p (Finset.mem_range.mp hp)]; rfl
  simp only [root_factor, e1, e2]

/-- C18: for every `pi` in `[0, 1]`: (1) for every state matrix `S` with
equal-width rows and every run of `root_node_pr` on it that completes, every entry
`s < |S|` of the result (the entries the function writes) lies in `[0, 1]`; (2) when
moreover `|S|` and the width fit `uint` and `Pr_root` has `|S|` cells, the run does
complete; (3) over `S = states_mat(P)` with `2 ^ P ≤ UINT_MAX` the run completes
with all entries in `[0, 1]` and sum `1`: the root prior is a probability
distribution. -/
theorem root_node_pr_distribution (pi : ℚ) (h0 : 0 ≤ pi) (h1 : pi ≤ 1) :
    (∀ (S : vv_uint) (P : Nat) (Pr_root out : v_dbl), (∀ row ∈ S, row.length = P) →
        root_node_pr Pr_root pi S = some out →
        ∀ s, s < S.length → ∃ x, out[s]? = some x ∧ 0 ≤ x ∧ x ≤ 1) ∧
      (∀ (S : vv_uint) (P : Nat) (Pr_root : v_dbl), (∀ row ∈ S, row.length = P) →
        S.length ≤ UINT_MAX → P ≤ UINT_MAX → Pr_root.length = S.length →
        ∃ out, root_node_pr Pr_root pi S = some out) ∧
      (∀ (P : Nat) (Pr_root : v_dbl), 2 ^ P ≤ UINT_MAX → Pr_root.length = 2 ^ P →
        ∃ S out, states_mat P = some S ∧ root_node_pr Pr_root pi S = some out ∧
          (∀ x ∈ out, 0 ≤ x ∧ x ≤ 1) ∧ out.sum = 1) := by
  refine ⟨?_, ?_, ?_⟩
  · intro S P Pr_root out _ h s hs
    obtain ⟨_, hvals⟩ := root_node_pr_of_some pi S Pr_root out h
    obtain ⟨x, hx1, hx2⟩ := hvals s hs
    exact ⟨x, hx2, root_node_pr_value_range pi h0 h1 S s x hx1⟩
  · intro S P Pr_root hS hN hP hlen
    obtain ⟨out, h, _⟩ := root_node_pr_spec pi S P Pr_root hN hP hS hlen
    exact ⟨out, h⟩
  · intro P Pr_root hP hlen
    obtain ⟨S, out, hS, hout, hlen2, hent⟩ := root_node_pr_states_mat pi P Pr_root hP hlen
    have hSlen : S.length = 2 ^ P := by rw [states_mat_eq P S hS]; simp
    refine ⟨S, out, hS, hout, ?_, ?_⟩
    · intro x hx
      obtain ⟨n, hn⟩ := List.mem_iff_getElem?.mp hx
      have hlt : n < out.length := by
        rcases List.getElem?_eq_some.mp hn with ⟨hl, _⟩
        exact hl
      obtain ⟨_, hvals⟩ := root_node_pr_of_some pi S Pr_root out hout
      obtain ⟨y, hy1, hy2⟩ := hvals n (by rw [hSlen, ← hlen2]; exact hlt)
      have e : x = y := Option.some.inj (hn.symm.trans hy2)
      rw [e]
      exact root_node_pr_value_range pi h0 h1 S n y hy1
    · rw [list_sum_of_entries out (2 ^ P) _ hlen2 hent]
      exact (bernoulli_product_sum (fun b : Nat => if b ≠ 0 then pi else 1 - pi) P).trans
        (by simp)

theorem root_node_pr_distribution_witness :
    (0 : ℚ) ≤ 1 / 4 ∧ (1 / 4 : ℚ) ≤ 1 ∧
      ∃ S out, states_mat 2 = some S ∧ root_node_pr [0, 0, 0, 0] (1 / 4) S = some out ∧
        (∀ x ∈ out, 0 ≤ x ∧ x ≤ 1) ∧ out.sum = 1 ∧
        ∀ s, s < S.length → ∃ x, out[s]? = some x ∧ 0 ≤ x ∧ x ≤ 1 := by
  have h := root_node_pr_distribution (1 / 4) (by norm_num) (by norm_num)
  obtain ⟨S, out, hS, hout, hr, hsum⟩ := h.2.2 2 [0, 0, 0, 0] (by decide) (by decide)
  have hrows : ∀ row ∈ S, row.length = 2 := by
    have e : S = [[0, 0], [1, 0], [0, 1], [1, 1]] :=
      Option.some.inj (hS.symm.trans (by decide))
    rw [e]
    decide
  exact ⟨by norm_num, by norm_num, S, out, hS, hout, hr, hsum,
    h.1 S 2 [0, 0, 0, 0] out hrows hout⟩


end pruner
